import Mathlib

/-!
# Verification of the fabrik sudoku solver core

Shallow embedding of the `fabrik` crate's core (board, parsing, validity
checks, and the explicit-stack backtracking iterator), together with proofs
of the specified properties.

Boards are modelled as a list of 9 rows of 9 fields, mirroring the Rust
`Board([[Field; 9]; 9])`.  Machine integers (`u8`, `usize`) are modelled as
`Nat`; all the values involved stay far below any overflow boundary.
-/

namespace Fabrik

/-- Embedding of `Field` (src/field.rs): either empty or a value. -/
inductive Field where
  | empty : Field
  | value (v : Nat) : Field
deriving DecidableEq, Repr

namespace Field

/-- `Field::is_empty` -/
def is_empty : Field → Bool
  | .empty => true
  | .value _ => false

/-- `Field::is_filled` -/
def is_filled : Field → Bool
  | .empty => false
  | .value _ => true

/-- `Field::from_u8` (unchecked constructor) -/
def from_u8 (v : Nat) : Field := .value v

end Field

/-- Embedding of `FieldParseError` (src/error.rs). -/
inductive FieldParseError where
  | InvalidCharacter : FieldParseError
  | SudokuRuleViolation : FieldParseError
deriving DecidableEq, Repr

/-- `Field::new`: validating constructor, digit must be 1-9. -/
def Field.new (digit : Nat) : Except FieldParseError Field :=
  if 1 ≤ digit ∧ digit ≤ 9 then .ok (.value digit) else .error .InvalidCharacter

/-- Embedding of `Position` (src/position.rs): row and column, each 0-8 by
invariant. -/
structure Position where
  row : Nat
  column : Nat
deriving DecidableEq, Repr

namespace Position

/-- `Position::from_index` -/
def from_index (index : Nat) : Position := ⟨index / 9, index % 9⟩

/-- The row-major linear index of a position (inverse of `from_index`). -/
def idx (p : Position) : Nat := p.row * 9 + p.column

/-- `Position::incremented_copy` -/
def incremented_copy (p : Position) : Option Position :=
  let coords := p.row * 9 + p.column + 1
  if coords < 81 then some ⟨coords / 9, coords % 9⟩ else none

/-- The coordinate invariant of the `Position` type: both in `[0,8]`. -/
def Valid (p : Position) : Prop := p.row < 9 ∧ p.column < 9

instance (p : Position) : Decidable p.Valid := by
  unfold Valid; infer_instance

end Position

/-- Embedding of `Board` (src/board.rs): 9 rows of 9 fields. -/
abbrev Board := List (List Field)

/-- Well-formedness of the board representation: 9 rows, each of 9 fields
(automatic in Rust's `[[Field; 9]; 9]`). -/
def Board.WF (b : Board) : Prop :=
  b.length = 9 ∧ ∀ r ∈ b, r.length = 9

instance (b : Board) : Decidable b.WF := by
  unfold Board.WF; infer_instance

namespace Board

/-- `Board::get_field` -/
def get_field (b : Board) (p : Position) : Field :=
  (b.getD p.row []).getD p.column Field.empty

/-- `Board::put_field` -/
def put_field (b : Board) (p : Position) (f : Field) : Board :=
  b.set p.row ((b.getD p.row []).set p.column f)

/-- The field at a row-major linear index. -/
def cellAt (b : Board) (i : Nat) : Field := b.get_field (Position.from_index i)

/-- The all-empty board, `Board([[Field::empty(); 9]; 9])`. -/
def mkEmpty : Board := List.replicate 9 (List.replicate 9 Field.empty)

/-- `Board::number_used_in_row` -/
def number_used_in_row (b : Board) (p : Position) (number : Field) : Bool :=
  (b.getD p.row []).any (fun field => field = number)

/-- `Board::number_used_in_column` -/
def number_used_in_column (b : Board) (p : Position) (number : Field) : Bool :=
  ((List.range 9).map (fun row => Position.mk row p.column)).any
    (fun q => b.get_field q = number)

/-- `Board::number_used_in_square` -/
def number_used_in_square (b : Board) (p : Position) (number : Field) : Bool :=
  let square_row := p.row / 3
  let square_column := p.column / 3
  ((List.range 3).map
      (fun row_increase =>
        ((b.getD (square_row * 3 + row_increase) []).drop (square_column * 3)).take 3)).any
    (fun slice => slice.any (fun field => field = number))

/-- `Board::valid_number_at_position` -/
def valid_number_at_position (b : Board) (p : Position) (number : Field) : Bool :=
  !b.number_used_in_row p number
    && !b.number_used_in_column p number
    && !b.number_used_in_square p number

end Board

/-- Auxiliary recursion for `positionsFrom`, structural on a step counter so
the kernel can evaluate it.  Each `incremented_copy` raises the linear index
by one and yields `none` once the index would pass 80, so at most 80
recursive steps ever happen and a counter of 81 never runs out. -/
def positionsFromAux : Nat → Position → List Position
  | 0, p => [p]
  | n + 1, p =>
      match p.incremented_copy with
      | some q => p :: positionsFromAux n q
      | none => [p]

/-- The list of positions emitted by `PositionIter::new(p)`
(src/position_iter.rs): `p` followed by successive `incremented_copy`s. -/
def positionsFrom (p : Position) : List Position := positionsFromAux 81 p

/-- `PositionIter::from_first_field()` as a list. -/
def allPositions : List Position := positionsFrom ⟨0, 0⟩

/-- `Board::next_empty_field`: first empty position at or after `p` in
row-major order. -/
def Board.next_empty_field (b : Board) (p : Position) : Option Position :=
  (positionsFrom p).find? (fun q => (b.get_field q).is_empty)

/-! ## The backtracking iterator (src/backtracking_iter.rs) -/

/-- Embedding of `Instruction`. -/
inductive Instruction where
  | TryValue (p : Position) (v : Nat) : Instruction
  | BackTo (p : Position) : Instruction
deriving DecidableEq, Repr

/-- Embedding of `WhatHappened`. -/
inductive WhatHappened where
  | PutNewFieldOnBoard : WhatHappened
  | RanOutOfStack : WhatHappened
deriving DecidableEq, Repr

/-- Embedding of the `BacktrackingIter` state: the working board, the
current-position cursor, and the instruction stack (head = top). -/
structure BState where
  board : Board
  current_position : Position
  stack : List Instruction
deriving DecidableEq, Repr

/-- `BacktrackingIter::new` -/
def initState (b : Board) : BState :=
  { board := b, current_position := ⟨0, 0⟩, stack := [] }

/-- Auxiliary recursion for `firstValidFrom`, structural on a step counter.
The loop body runs for candidates `v..9`, so from any starting candidate a
counter of 10 never runs out before the `v ≤ 9` guard stops the loop. -/
def firstValidFromAux : Nat → Board → Position → Nat → Option Nat
  | 0, _, _, _ => none
  | n + 1, b, pos, v =>
      if v ≤ 9 then
        if b.valid_number_at_position pos (Field.from_u8 v) then some v
        else firstValidFromAux n b pos (v + 1)
      else none

/-- The `for value in v..=9` loop inside `execute_stack`: the least candidate
in `[v..9]` that is a valid placement at `pos`, if any. -/
def firstValidFrom (b : Board) (pos : Position) (v : Nat) : Option Nat :=
  firstValidFromAux 10 b pos v

/-- `BacktrackingIter::prepare_stack`: push `BackTo(current)` then
`TryValue(next_empty_field, 1)`. -/
def prepare_stack (s : BState) (next_empty_field : Position) : BState :=
  { s with stack :=
      .TryValue next_empty_field 1 :: .BackTo s.current_position :: s.stack }

/-- `BacktrackingIter::execute_stack`, recursion on the instruction stack.
A `TryValue` frame first sets the cursor to its position; if some candidate
in `[v..9]` is valid it pushes a resume frame (only when the digit is `< 9`),
places the digit and returns; otherwise execution continues with the rest of
the stack.  A `BackTo` frame clears the cell at the cursor and moves the
cursor back.  An empty stack signals exhaustion. -/
def execute_stack : List Instruction → Board → Position → WhatHappened × BState
  | [], b, cur => (.RanOutOfStack, ⟨b, cur, []⟩)
  | .TryValue pos v :: rest, b, _ =>
      match firstValidFrom b pos v with
      | some d =>
          let stack' := if d < 9 then .TryValue pos (d + 1) :: rest else rest
          (.PutNewFieldOnBoard, ⟨b.put_field pos (Field.from_u8 d), pos, stack'⟩)
      | none => execute_stack rest b pos
  | .BackTo c :: rest, b, cur =>
      execute_stack rest (b.put_field cur Field.empty) c

/-- `<BacktrackingIter as Iterator>::next`: prepare the stack when the board
still has an empty cell at or after the cursor, then execute the stack; on a
placement emit the board snapshot together with the completeness flag. -/
def nextStep (s : BState) : Option ((Board × Bool) × BState) :=
  let s1 :=
    match s.board.next_empty_field s.current_position with
    | some p => prepare_stack s p
    | none => s
  match execute_stack s1.stack s1.board s1.current_position with
  | (.PutNewFieldOnBoard, s2) =>
      some ((s2.board, (s2.board.next_empty_field s2.current_position).isNone), s2)
  | (.RanOutOfStack, _) => none

/-- The list of pairs emitted by the first `fuel` calls to `next` (stopping
at exhaustion). -/
def emits : BState → Nat → List (Board × Bool)
  | _, 0 => []
  | s, fuel + 1 =>
      match nextStep s with
      | none => []
      | some (pair, s') => pair :: emits s' fuel

/-- Whether the iterator reaches exhaustion (`next` returns `None`) within
`fuel` calls. -/
def exhaustedWithin : BState → Nat → Bool
  | _, 0 => false
  | s, fuel + 1 =>
      match nextStep s with
      | none => true
      | some (_, s') => exhaustedWithin s' fuel

/-- `Board::first_solution`, fuel-indexed: `some (some g)` models
`Ok(g)`, `some none` models `Err(Unsolvable)`, and `none` means the fuel ran
out before the iterator settled (a model artifact, not a program outcome). -/
def firstSolutionFuel : BState → Nat → Option (Option Board)
  | _, 0 => none
  | s, fuel + 1 =>
      match nextStep s with
      | none => some none
      | some ((b, true), _) => some (some b)
      | some ((_, false), s') => firstSolutionFuel s' fuel

/-- `Board::first_solution` driven for `fuel` iterator steps. -/
def Board.first_solution (b : Board) (fuel : Nat) : Option (Option Board) :=
  firstSolutionFuel (initState b) fuel

/-- The cap predicates used by the two `take_while` closures in
`Board::count_solutions`. -/
def underCap (cap : Option Nat) (index : Nat) : Bool :=
  match cap with
  | some max => index < max
  | none => true

/-- The iterator pipeline of `Board::count_solutions`, applied to a list of
emitted pairs: `enumerate / take_while(max_iterations) / filter(is_solved) /
enumerate / take_while(max_solutions) / count`. -/
def countPipeline (l : List (Board × Bool)) (max_solutions max_iterations : Option Nat) : Nat :=
  (((((l.enum.takeWhile fun p => underCap max_iterations p.1).filter
        fun p => p.2.2).enum).takeWhile fun q => underCap max_solutions q.1).length)

/-- `Board::count_solutions` driven for `fuel` iterator steps. -/
def Board.count_solutions (b : Board) (max_solutions max_iterations : Option Nat)
    (fuel : Nat) : Nat :=
  countPipeline (emits (initState b) fuel) max_solutions max_iterations

/-! ## Parsing (the `TryFrom` chain of src/board.rs) and errors -/

/-- Embedding of `SudokuParseError`; the Rust `HashSet` of per-position
errors is modelled as a `Finset`. -/
inductive SudokuParseError where
  | InvalidLength : SudokuParseError
  | ParseErrors (errors : Finset (Position × FieldParseError)) : SudokuParseError

instance : DecidableEq SudokuParseError
  | .InvalidLength, .InvalidLength => .isTrue rfl
  | .InvalidLength, .ParseErrors _ => .isFalse (by intro h; cases h)
  | .ParseErrors _, .InvalidLength => .isFalse (by intro h; cases h)
  | .ParseErrors s, .ParseErrors t =>
      if h : s = t then .isTrue (by rw [h])
      else .isFalse (by intro hc; cases hc; exact h rfl)

instance : DecidableEq (Except SudokuParseError Board)
  | .ok a, .ok b =>
      if h : a = b then .isTrue (by rw [h])
      else .isFalse (by intro hc; cases hc; exact h rfl)
  | .error a, .error b =>
      if h : a = b then .isTrue (by rw [h])
      else .isFalse (by intro hc; cases hc; exact h rfl)
  | .ok _, .error _ => .isFalse (by intro h; cases h)
  | .error _, .ok _ => .isFalse (by intro h; cases h)

/-- `Board::rule_violations`: the set of filled positions whose digit,
after temporarily clearing that cell, would not be a valid placement. -/
def Board.rule_violations (b : Board) : Finset Position :=
  (((allPositions.map (fun position => (position, b.get_field position))).filter
        (fun pf => pf.2.is_filled)).filter
      (fun pf =>
        !((b.put_field pf.1 Field.empty).valid_number_at_position pf.1 pf.2))
    |>.map Prod.fst).toFinset

/-- One iteration of the lenient construction loop of
`TryFrom<Vec<Option<u8>>>`: parse the entry with `Field::new`, treating a
failure as an empty field recorded as an `InvalidCharacter` error, and put
the parsed field on the board. -/
def lenientStep (acc : Board × Finset (Position × FieldParseError))
    (entry : Nat × Option Nat) : Board × Finset (Position × FieldParseError) :=
  let position := Position.from_index entry.1
  match entry.2 with
  | some val =>
      match Field.new val with
      | .ok field => (acc.1.put_field position field, acc.2)
      | .error _ =>
          (acc.1.put_field position Field.empty,
           insert (position, FieldParseError.InvalidCharacter) acc.2)
  | none => (acc.1.put_field position Field.empty, acc.2)

/-- The lenient construction loop of `TryFrom<Vec<Option<u8>>>`: build the
board treating invalid digits as empty, while collecting their positions as
`InvalidCharacter` errors. -/
def lenientFold (input : List (Option Nat)) :
    Board × Finset (Position × FieldParseError) :=
  input.enum.foldl lenientStep (Board.mkEmpty, ∅)

/-- `TryFrom<Vec<Option<u8>>> for Board`. -/
def tryFromOptVec (input : List (Option Nat)) : Except SudokuParseError Board :=
  if input.length ≠ 81 then .error .InvalidLength
  else
    let lenient_board := (lenientFold input).1
    let positions_with_parse_errors := (lenientFold input).2
    let rule_violations :=
      lenient_board.rule_violations.image
        (fun pos => (pos, FieldParseError.SudokuRuleViolation))
    let all_errors := positions_with_parse_errors ∪ rule_violations
    if all_errors = ∅ then .ok lenient_board
    else .error (.ParseErrors all_errors)

/-- `TryFrom<Vec<u8>> for Board`: `'-'` and `' '` become `None`, ASCII
digits 1-9 become their value, anything else the invalid marker 255. -/
def tryFromBytes (input : List Nat) : Except SudokuParseError Board :=
  tryFromOptVec
    (input.map fun c =>
      if c = 45 ∨ c = 32 then none
      else if 49 ≤ c ∧ c ≤ 57 then some (c - 48)
      else some 255)

/-- The Unicode `White_Space` code points (`char::is_whitespace`). -/
def whitespaceCodes : List Nat :=
  [9, 10, 11, 12, 13, 32, 0x85, 0xA0, 0x1680,
   0x2000, 0x2001, 0x2002, 0x2003, 0x2004, 0x2005, 0x2006, 0x2007, 0x2008,
   0x2009, 0x200A, 0x2028, 0x2029, 0x202F, 0x205F, 0x3000]

/-- Whether a code point is Rust whitespace. -/
def isWhitespaceChar (c : Nat) : Bool := whitespaceCodes.contains c

/-- UTF-8 encoding of one code point (what `str::bytes` yields per char). -/
def utf8Encode (c : Nat) : List Nat :=
  if c < 0x80 then [c]
  else if c < 0x800 then [0xC0 + c / 64, 0x80 + c % 64]
  else if c < 0x10000 then
    [0xE0 + c / 4096, 0x80 + c / 64 % 64, 0x80 + c % 64]
  else
    [0xF0 + c / 262144, 0x80 + c / 4096 % 64, 0x80 + c / 64 % 64, 0x80 + c % 64]

/-- `TryFrom<&str> for Board`: the string is a list of Unicode code points;
`split_whitespace().collect()` discards every whitespace character, and
`bytes()` UTF-8-encodes what remains. -/
def tryFromStr (input : List Nat) : Except SudokuParseError Board :=
  tryFromBytes ((input.filter (fun c => !isWhitespaceChar c)).flatMap utf8Encode)

/-! ## Display (the `Display` impls) -/

/-- Auxiliary recursion for `natDecimal`, structural on a step counter.
Each step divides the argument by 10, so a counter of `n + 1` never runs
out for argument `n`. -/
def natDecimalAux : Nat → Nat → List Nat
  | 0, n => [48 + n]
  | f + 1, n => if n < 10 then [48 + n] else natDecimalAux f (n / 10) ++ [48 + n % 10]

/-- Decimal digits (ASCII) of a natural number, as written by `format!`. -/
def natDecimal (n : Nat) : List Nat := natDecimalAux (n + 1) n

/-- `<Field as Display>::fmt`: a blank for empty, decimal digits otherwise. -/
def Field.render : Field → List Nat
  | .empty => [32]
  | .value v => natDecimal v

/-- The `"+-----------+"` border line. -/
def borderLine : List Nat := [43] ++ List.replicate 11 45 ++ [43]

/-- The `"+---+---+---+"` separator line. -/
def sepLine : List Nat := [43, 45, 45, 45, 43, 45, 45, 45, 43, 45, 45, 45, 43]

/-- `<Board as Display>::fmt` as a byte string (code 10 is the newline
written by `writeln!`, 124 the `'|'` separator). -/
def Board.displayBytes (b : Board) : List Nat :=
  (borderLine ++ [10]) ++
    ((List.range 9).flatMap fun row =>
      [124] ++
        ((List.range 9).flatMap fun column =>
          ((b.getD row []).getD column Field.empty).render ++
            (if (column + 1) % 3 = 0 then [124] else [])) ++
        [10] ++
        (if (row + 1) % 3 = 0 ∧ row ≠ 8 then sepLine ++ [10] else [])) ++
  (borderLine ++ [10])

/-! ## Spec-level predicates -/

/-- Two linear indices lie in the same row. -/
def sameRowIdx (i j : Nat) : Prop := i / 9 = j / 9

/-- Two linear indices lie in the same column. -/
def sameColIdx (i j : Nat) : Prop := i % 9 = j % 9

/-- Two linear indices lie in the same 3×3 box. -/
def sameBoxIdx (i j : Nat) : Prop :=
  i / 9 / 3 = j / 9 / 3 ∧ i % 9 / 3 = j % 9 / 3

instance (i j : Nat) : Decidable (sameRowIdx i j) := by unfold sameRowIdx; infer_instance
instance (i j : Nat) : Decidable (sameColIdx i j) := by unfold sameColIdx; infer_instance
instance (i j : Nat) : Decidable (sameBoxIdx i j) := by unfold sameBoxIdx; infer_instance

/-- The sudoku rules, as the spec states them: each row, each column and
each 3×3 box contains each digit 1-9 at most once. -/
def Board.atMostOnce (b : Board) : Prop :=
  ∀ i j : Fin 81, i.val ≠ j.val →
    (sameRowIdx i.val j.val ∨ sameColIdx i.val j.val ∨ sameBoxIdx i.val j.val) →
    ∀ d : Fin 9,
      ¬(b.cellAt i.val = Field.value (d.val + 1) ∧
        b.cellAt j.val = Field.value (d.val + 1))

instance (b : Board) : Decidable b.atMostOnce := by
  unfold Board.atMostOnce; infer_instance

/-- Every cell of the board is empty or holds a digit 1-9 (the `Field`
type's intended invariant). -/
def Board.cellsValid (b : Board) : Prop :=
  ∀ i : Fin 81,
    b.cellAt i.val = Field.empty ∨
      ∃ d : Fin 9, b.cellAt i.val = Field.value (d.val + 1)

instance (b : Board) : Decidable b.cellsValid := by
  unfold Board.cellsValid; infer_instance

/-- A board with no empty cell at all. -/
def Board.Full (b : Board) : Prop :=
  ∀ i : Fin 81, (b.cellAt i.val).is_filled = true

instance (b : Board) : Decidable b.Full := by
  unfold Board.Full; infer_instance

/-! ## Position lemmas -/

theorem Position.idx_from_index (i : Nat) : (Position.from_index i).idx = i := by
  simp only [Position.from_index, Position.idx]
  omega

theorem Position.from_index_valid {i : Nat} (h : i < 81) :
    (Position.from_index i).Valid := by
  simp only [Position.from_index, Position.Valid]
  omega

theorem Position.from_index_idx {p : Position} (h : p.Valid) :
    Position.from_index p.idx = p := by
  cases p with
  | mk r c =>
    simp only [Position.Valid] at h
    simp only [Position.from_index, Position.idx, Position.mk.injEq]
    omega

theorem Position.idx_lt_81 {p : Position} (h : p.Valid) : p.idx < 81 := by
  obtain ⟨h1, h2⟩ := h
  simp only [Position.idx]
  omega

theorem Position.from_index_inj {i j : Nat} (hi : i < 81) (hj : j < 81)
    (hne : i ≠ j) : Position.from_index i ≠ Position.from_index j := by
  intro h
  apply hne
  have := congrArg Position.idx h
  simpa only [Position.idx_from_index] using this

theorem Position.incremented_copy_some {p : Position} {q : Position}
    (h : p.incremented_copy = some q) :
    p.idx + 1 < 81 ∧ q = Position.from_index (p.idx + 1) := by
  simp only [Position.incremented_copy, Position.idx, Position.from_index] at *
  split at h
  · rename_i hlt
    cases h
    exact ⟨hlt, rfl⟩
  · cases h

theorem Position.incremented_copy_none {p : Position}
    (h : p.incremented_copy = none) : ¬(p.idx + 1 < 81) := by
  simp only [Position.incremented_copy, Position.idx] at *
  split at h
  · cases h
  · assumption

/-- Characterization of the position iterator: starting at linear index `i`,
it yields exactly the positions of indices `i, i+1, …, 80`. -/
theorem positionsFromAux_eq :
    ∀ (n i : Nat), i < 81 → 81 ≤ i + n + 1 →
      positionsFromAux n (Position.from_index i) =
        (List.range' i (81 - i)).map Position.from_index := by
  intro n
  induction n with
  | zero =>
      intro i hi hn
      have : i = 80 := by omega
      subst this
      rfl
  | succ n ih =>
      intro i hi hn
      have h80 : 81 - i = (80 - i) + 1 := by omega
      rw [h80, List.range'_succ]
      simp only [positionsFromAux, List.map_cons]
      cases hc : (Position.from_index i).incremented_copy with
      | some q =>
          obtain ⟨hlt, hq⟩ := Position.incremented_copy_some hc
          rw [Position.idx_from_index] at hlt hq
          subst hq
          show Position.from_index i ::
              positionsFromAux n (Position.from_index (i + 1)) = _
          rw [ih (i + 1) hlt (by omega)]
          have harith : 81 - (i + 1) = 80 - i := by omega
          rw [harith]
      | none =>
          have hni := Position.incremented_copy_none hc
          rw [Position.idx_from_index] at hni
          have hi80 : i = 80 := by omega
          subst hi80
          show [Position.from_index 80] = _
          simp

theorem positionsFrom_eq {i : Nat} (h : i < 81) :
    positionsFrom (Position.from_index i) =
      (List.range' i (81 - i)).map Position.from_index :=
  positionsFromAux_eq 81 i h (by omega)

theorem allPositions_eq :
    allPositions = (List.range' 0 81).map Position.from_index := by
  have h : (⟨0, 0⟩ : Position) = Position.from_index 0 := rfl
  rw [allPositions, h, positionsFrom_eq (by omega)]

theorem mem_allPositions {i : Nat} (h : i < 81) :
    Position.from_index i ∈ allPositions := by
  rw [allPositions_eq]
  exact List.mem_map_of_mem _ (by simp [List.mem_range'_1]; omega)

/-! ## find? over an index range -/

/-- First-match characterization of `find?` over a mapped index range:
`none` means no index satisfies the predicate. -/
theorem find?_map_range'_eq_none {α : Type} (f : Nat → α) (pr : α → Bool)
    {i k : Nat} :
    ((List.range' i k).map f).find? pr = none ↔
      ∀ j, i ≤ j → j < i + k → pr (f j) = false := by
  rw [List.find?_eq_none]
  constructor
  · intro h j h1 h2
    have hm : f j ∈ (List.range' i k).map f :=
      List.mem_map_of_mem f (by simp [List.mem_range'_1]; omega)
    have := h _ hm
    simpa using this
  · intro h x hx
    rw [List.mem_map] at hx
    obtain ⟨j, hj, rfl⟩ := hx
    rw [List.mem_range'_1] at hj
    have := h j (by omega) (by omega)
    simp [this]

/-- First-match characterization of `find?` over a mapped index range: a
`some` result is the image of the least index satisfying the predicate. -/
theorem find?_map_range'_eq_some {α : Type} (f : Nat → α) (pr : α → Bool) :
    ∀ (k i : Nat) (x : α), ((List.range' i k).map f).find? pr = some x →
      ∃ j, i ≤ j ∧ j < i + k ∧ x = f j ∧ pr (f j) = true ∧
        ∀ l, i ≤ l → l < j → pr (f l) = false := by
  intro k
  induction k with
  | zero => intro i x h; simp [List.range'] at h
  | succ k ih =>
      intro i x h
      rw [List.range'_succ, List.map_cons, List.find?_cons] at h
      split at h
      · rename_i hp
        cases h
        exact ⟨i, le_refl i, by omega, rfl, hp, fun l h1 h2 => by omega⟩
      · rename_i hp
        obtain ⟨j, h1, h2, h3, h4, h5⟩ := ih (i + 1) x h
        refine ⟨j, by omega, by omega, h3, h4, ?_⟩
        intro l hl1 hl2
        rcases Nat.eq_or_lt_of_le hl1 with heq | hlt
        · subst heq
          exact hp
        · exact h5 l hlt hl2

/-! ## Characterization of next_empty_field -/

theorem next_empty_field_none_iff_idx {b : Board} {i : Nat} (hi : i < 81) :
    b.next_empty_field (Position.from_index i) = none ↔
      ∀ j, i ≤ j → j < 81 → (b.cellAt j).is_filled = true := by
  rw [Board.next_empty_field, positionsFrom_eq hi, find?_map_range'_eq_none]
  constructor
  · intro h j h1 h2
    have := h j h1 (by omega)
    cases hc : (b.cellAt j) <;>
      simp_all [Board.cellAt, Field.is_empty, Field.is_filled]
  · intro h j h1 h2
    have := h j h1 (by omega)
    cases hc : (b.cellAt j) <;>
      simp_all [Board.cellAt, Field.is_empty, Field.is_filled]

theorem next_empty_field_none_iff {b : Board} {p : Position} (hp : p.Valid) :
    b.next_empty_field p = none ↔
      ∀ j, p.idx ≤ j → j < 81 → (b.cellAt j).is_filled = true := by
  have h := @next_empty_field_none_iff_idx b p.idx (Position.idx_lt_81 hp)
  rw [Position.from_index_idx hp] at h
  exact h

theorem next_empty_field_some_idx {b : Board} {i : Nat} {q : Position}
    (hi : i < 81) (h : b.next_empty_field (Position.from_index i) = some q) :
    q.Valid ∧ q = Position.from_index q.idx ∧ i ≤ q.idx ∧ q.idx < 81 ∧
      (b.cellAt q.idx).is_empty = true ∧
      ∀ l, i ≤ l → l < q.idx → (b.cellAt l).is_filled = true := by
  rw [Board.next_empty_field, positionsFrom_eq hi] at h
  obtain ⟨j, h1, h2, h3, h4, h5⟩ := find?_map_range'_eq_some _ _ _ _ _ h
  subst h3
  rw [Position.idx_from_index]
  have hj81 : j < 81 := by omega
  refine ⟨Position.from_index_valid hj81, rfl, h1, hj81, h4, ?_⟩
  intro l hl1 hl2
  have hthis := h5 l hl1 hl2
  cases hc : b.get_field (Position.from_index l) with
  | empty =>
      rw [hc] at hthis
      simp [Field.is_empty] at hthis
  | value v =>
      simp [Board.cellAt, hc, Field.is_filled]

theorem next_empty_field_some {b : Board} {p q : Position} (hp : p.Valid)
    (h : b.next_empty_field p = some q) :
    q.Valid ∧ q = Position.from_index q.idx ∧ p.idx ≤ q.idx ∧ q.idx < 81 ∧
      (b.cellAt q.idx).is_empty = true ∧
      ∀ l, p.idx ≤ l → l < q.idx → (b.cellAt l).is_filled = true := by
  apply next_empty_field_some_idx (Position.idx_lt_81 hp)
  rw [Position.from_index_idx hp]
  exact h

/-! ## List getD/set helpers and board access lemmas -/

theorem getD_set_self {α : Type} {l : List α} {i : Nat} (x d : α)
    (h : i < l.length) : (l.set i x).getD i d = x := by
  rw [List.getD_eq_getElem?_getD, List.getElem?_set_self' ]
  simp [List.getElem?_eq_getElem h]

theorem getD_set_ne {α : Type} {l : List α} {i j : Nat} (x d : α)
    (h : i ≠ j) : (l.set i x).getD j d = l.getD j d := by
  rw [List.getD_eq_getElem?_getD, List.getD_eq_getElem?_getD,
    List.getElem?_set_ne h]

theorem Board.row_len {b : Board} (h : b.WF) {r : Nat} (hr : r < 9) :
    (b.getD r []).length = 9 := by
  obtain ⟨h1, h2⟩ := h
  have hlt : r < b.length := by omega
  rw [List.getD_eq_getElem _ _ hlt]
  exact h2 _ (List.getElem_mem hlt)

theorem Board.WF_put {b : Board} (h : b.WF) (p : Position) (f : Field) :
    (b.put_field p f).WF := by
  obtain ⟨h1, h2⟩ := h
  by_cases hlt : p.row < b.length
  · constructor
    · simp [Board.put_field, h1]
    · intro r hr
      rcases List.mem_or_eq_of_mem_set hr with hmem | heq
      · exact h2 _ hmem
      · subst heq
        rw [List.length_set]
        exact Board.row_len ⟨h1, h2⟩ (by omega)
  · rw [Board.put_field, List.set_eq_of_length_le (by omega)]
    exact ⟨h1, h2⟩

theorem Board.get_put_self {b : Board} {p : Position} (f : Field)
    (hWF : b.WF) (hp : p.Valid) : (b.put_field p f).get_field p = f := by
  obtain ⟨hr, hc⟩ := hp
  have hrowlen := Board.row_len hWF hr
  obtain ⟨h1, _⟩ := hWF
  rw [Board.put_field, Board.get_field,
    getD_set_self _ _ (by omega : p.row < b.length),
    getD_set_self _ _ (by omega : p.column < (b.getD p.row []).length)]

theorem Board.get_put_ne {b : Board} {p q : Position} (f : Field)
    (h : p.row ≠ q.row ∨ p.column ≠ q.column) :
    (b.put_field p f).get_field q = b.get_field q := by
  rw [Board.put_field, Board.get_field, Board.get_field]
  rcases h with hrow | hcol
  · rw [getD_set_ne _ _ hrow]
  · by_cases hrow : p.row = q.row
    · rw [hrow]
      by_cases hlt : q.row < b.length
      · rw [getD_set_self _ _ hlt, getD_set_ne _ _ hcol]
      · rw [List.set_eq_of_length_le (by omega)]
    · rw [getD_set_ne _ _ hrow]

theorem Board.get_field_eq_cellAt {b : Board} {p : Position} (hp : p.Valid) :
    b.get_field p = b.cellAt p.idx := by
  rw [Board.cellAt, Position.from_index_idx hp]

theorem Board.cellAt_put_self {b : Board} {i : Nat} (f : Field)
    (hWF : b.WF) (hi : i < 81) :
    (b.put_field (Position.from_index i) f).cellAt i = f := by
  rw [Board.cellAt]
  exact Board.get_put_self f hWF (Position.from_index_valid hi)

theorem Board.cellAt_put_idx_self {b : Board} {p : Position} (f : Field)
    (hWF : b.WF) (hp : p.Valid) : (b.put_field p f).cellAt p.idx = f := by
  rw [Board.cellAt, Position.from_index_idx hp]
  exact Board.get_put_self f hWF hp

theorem Board.cellAt_put_ne {b : Board} {p : Position} {j : Nat} (f : Field)
    (hp : p.Valid) (hj : j < 81) (hne : p.idx ≠ j) :
    (b.put_field p f).cellAt j = b.cellAt j := by
  rw [Board.cellAt, Board.cellAt]
  apply Board.get_put_ne
  by_contra hcon
  push_neg at hcon
  obtain ⟨he1, he2⟩ := hcon
  apply hne
  obtain ⟨hr, hc⟩ := hp
  simp only [Position.from_index] at he1 he2
  simp only [Position.idx]
  omega

/-- Any cell of a board after a put is either the new field or the old
cell, irrespective of bounds. -/
theorem Board.cellAt_put_cases (b : Board) (p : Position) (f : Field)
    (i : Nat) :
    (b.put_field p f).cellAt i = f ∨ (b.put_field p f).cellAt i = b.cellAt i := by
  rw [Board.cellAt, Board.cellAt, Board.put_field, Board.get_field,
    Board.get_field]
  by_cases hrow : p.row = (Position.from_index i).row
  · by_cases hlt : p.row < b.length
    · rw [← hrow, getD_set_self _ _ hlt]
      by_cases hcol : p.column = (Position.from_index i).column
      · by_cases hlt2 : p.column < (b.getD p.row []).length
        · left
          rw [← hcol, getD_set_self _ _ hlt2]
        · right
          rw [List.set_eq_of_length_le (by omega)]
      · right
        rw [getD_set_ne _ _ hcol]
    · right
      rw [List.set_eq_of_length_le (by omega)]
  · right
    rw [getD_set_ne _ _ hrow]

theorem Board.mkEmpty_WF : Board.mkEmpty.WF := by decide

/-- Two well-formed boards with the same cells are equal. -/
theorem Board.ext_cellAt {b1 b2 : Board} (h1 : b1.WF) (h2 : b2.WF)
    (h : ∀ i, i < 81 → b1.cellAt i = b2.cellAt i) : b1 = b2 := by
  obtain ⟨h1l, h1r⟩ := h1
  obtain ⟨h2l, h2r⟩ := h2
  apply List.ext_getElem (by omega)
  intro r hr1 hr2
  have hrow1 : b1[r].length = 9 := h1r _ (List.getElem_mem hr1)
  have hrow2 : b2[r].length = 9 := h2r _ (List.getElem_mem hr2)
  apply List.ext_getElem (by omega)
  intro c hc1 hc2
  have hcell := h (r * 9 + c) (by omega)
  rw [Board.cellAt, Board.cellAt, Board.get_field, Board.get_field] at hcell
  have hfr : (Position.from_index (r * 9 + c)).row = r := by
    simp only [Position.from_index]; omega
  have hfc : (Position.from_index (r * 9 + c)).column = c := by
    simp only [Position.from_index]; omega
  rw [hfr, hfc, List.getD_eq_getElem _ _ hr1, List.getD_eq_getElem _ _ hr2]
    at hcell
  rw [List.getD_eq_getElem _ _ (by omega), List.getD_eq_getElem _ _ (by omega)]
    at hcell
  exact hcell

/-! ## Bridging the row/column/box checks to cell facts -/

theorem Position.from_index_mk {r c : Nat} (hc : c < 9) :
    Position.from_index (r * 9 + c) = ⟨r, c⟩ := by
  simp only [Position.from_index, Position.mk.injEq]
  omega

theorem Board.cellAt_eq_get {b : Board} {r c : Nat} (hc : c < 9) :
    b.cellAt (r * 9 + c) = b.get_field ⟨r, c⟩ := by
  rw [Board.cellAt, Position.from_index_mk hc]

theorem number_used_in_row_iff {b : Board} {p : Position} {f : Field}
    (hWF : b.WF) (hp : p.Valid) :
    b.number_used_in_row p f = true ↔
      ∃ c, c < 9 ∧ b.get_field ⟨p.row, c⟩ = f := by
  have hlen := Board.row_len hWF hp.1
  rw [Board.number_used_in_row, List.any_eq_true]
  constructor
  · rintro ⟨x, hx, hpx⟩
    obtain ⟨c, hc, hval⟩ := List.getElem_of_mem hx
    refine ⟨c, by omega, ?_⟩
    rw [Board.get_field, List.getD_eq_getElem _ _ hc, hval]
    simpa using hpx
  · rintro ⟨c, hc, hval⟩
    simp only [Board.get_field] at hval
    have hcl : c < (b.getD p.row []).length := by omega
    rw [List.getD_eq_getElem _ _ hcl] at hval
    exact ⟨(b.getD p.row []).get ⟨c, hcl⟩, List.getElem_mem hcl,
      by simpa using hval⟩

theorem number_used_in_column_iff {b : Board} {p : Position} {f : Field} :
    b.number_used_in_column p f = true ↔
      ∃ r, r < 9 ∧ b.get_field ⟨r, p.column⟩ = f := by
  rw [Board.number_used_in_column, List.any_eq_true]
  constructor
  · rintro ⟨x, hx, hpx⟩
    rw [List.mem_map] at hx
    obtain ⟨r, hr, rfl⟩ := hx
    rw [List.mem_range] at hr
    exact ⟨r, hr, by simpa using hpx⟩
  · rintro ⟨r, hr, hval⟩
    refine ⟨⟨r, p.column⟩, ?_, by simpa using hval⟩
    rw [List.mem_map]
    exact ⟨r, by rw [List.mem_range]; exact hr, rfl⟩

theorem mem_take_drop_iff {l : List Field} {m : Nat} (h : m + 3 ≤ l.length)
    (x : Field) :
    x ∈ (l.drop m).take 3 ↔ ∃ j, j < 3 ∧ x = l.getD (m + j) Field.empty := by
  have hdl : (l.drop m).length = l.length - m := List.length_drop m l
  have htl : ((l.drop m).take 3).length = 3 := by
    rw [List.length_take]
    omega
  constructor
  · intro hx
    obtain ⟨j, hj, hval⟩ := List.getElem_of_mem hx
    rw [htl] at hj
    refine ⟨j, hj, ?_⟩
    rw [List.getElem_take, List.getElem_drop] at hval
    rw [List.getD_eq_getElem _ _ (by omega), ← hval]
  · rintro ⟨j, hj, hval⟩
    have hjl : j < ((l.drop m).take 3).length := by omega
    have : ((l.drop m).take 3).getD j Field.empty = x := by
      rw [List.getD_eq_getElem _ _ hjl, List.getElem_take, List.getElem_drop,
        hval, List.getD_eq_getElem _ _ (by omega)]
    rw [← this, List.getD_eq_getElem _ _ hjl]
    exact List.getElem_mem hjl

theorem number_used_in_square_iff {b : Board} {p : Position} {f : Field}
    (hWF : b.WF) (hp : p.Valid) :
    b.number_used_in_square p f = true ↔
      ∃ ri ci, ri < 3 ∧ ci < 3 ∧
        b.get_field ⟨p.row / 3 * 3 + ri, p.column / 3 * 3 + ci⟩ = f := by
  obtain ⟨hr9, hc9⟩ := hp
  rw [Board.number_used_in_square, List.any_eq_true]
  constructor
  · rintro ⟨slice, hs, hps⟩
    rw [List.mem_map] at hs
    obtain ⟨ri, hri, rfl⟩ := hs
    rw [List.mem_range] at hri
    rw [List.any_eq_true] at hps
    obtain ⟨x, hx, hpx⟩ := hps
    have hrow : (b.getD (p.row / 3 * 3 + ri) []).length = 9 :=
      Board.row_len hWF (by omega)
    rw [mem_take_drop_iff (by omega)] at hx
    obtain ⟨ci, hci, hval⟩ := hx
    refine ⟨ri, ci, hri, hci, ?_⟩
    rw [Board.get_field]
    have hfeq : x = f := by simpa using hpx
    rw [← hfeq, hval]
  · rintro ⟨ri, ci, hri, hci, hval⟩
    have hrow : (b.getD (p.row / 3 * 3 + ri) []).length = 9 :=
      Board.row_len hWF (by omega)
    refine ⟨((b.getD (p.row / 3 * 3 + ri) []).drop (p.column / 3 * 3)).take 3,
      ?_, ?_⟩
    · rw [List.mem_map]
      exact ⟨ri, by rw [List.mem_range]; exact hri, rfl⟩
    · rw [List.any_eq_true]
      refine ⟨f, ?_, by simp⟩
      rw [mem_take_drop_iff (by omega)]
      exact ⟨ci, hci, by rw [← hval, Board.get_field]⟩

/-- The indices sharing a row, column, or box with `i`. -/
def sameUnit (i j : Nat) : Prop := sameRowIdx i j ∨ sameColIdx i j ∨ sameBoxIdx i j

instance (i j : Nat) : Decidable (sameUnit i j) := by
  unfold sameUnit; infer_instance

/-- The validity check of `valid_number_at_position` holds exactly when no
cell in the row, column, or box of `p` holds `f`. -/
theorem valid_number_iff {b : Board} {p : Position} {f : Field}
    (hWF : b.WF) (hp : p.Valid) :
    b.valid_number_at_position p f = true ↔
      ∀ j, j < 81 → sameUnit p.idx j → b.cellAt j ≠ f := by
  obtain ⟨hr9, hc9⟩ := hp
  have hidxr : p.idx / 9 = p.row := by simp only [Position.idx]; omega
  have hidxc : p.idx % 9 = p.column := by simp only [Position.idx]; omega
  rw [Board.valid_number_at_position]
  simp only [Bool.and_eq_true, Bool.not_eq_true']
  constructor
  · rintro ⟨⟨hrow, hcol⟩, hsq⟩ j hj hsame hval
    rcases hsame with hs | hs | hs
    · rw [sameRowIdx, hidxr] at hs
      have : b.number_used_in_row p f = true := by
        rw [number_used_in_row_iff hWF ⟨hr9, hc9⟩]
        refine ⟨j % 9, by omega, ?_⟩
        rw [← hval, Board.cellAt, Position.from_index]
        rw [← hs]
      rw [this] at hrow
      cases hrow
    · rw [sameColIdx, hidxc] at hs
      have : b.number_used_in_column p f = true := by
        rw [number_used_in_column_iff]
        refine ⟨j / 9, by omega, ?_⟩
        rw [← hval, Board.cellAt, Position.from_index]
        rw [← hs]
      rw [this] at hcol
      cases hcol
    · have hs' : p.idx / 9 / 3 = j / 9 / 3 ∧ p.idx % 9 / 3 = j % 9 / 3 := hs
      obtain ⟨hs1, hs2⟩ := hs'
      rw [hidxr] at hs1
      rw [hidxc] at hs2
      have : b.number_used_in_square p f = true := by
        rw [number_used_in_square_iff hWF ⟨hr9, hc9⟩]
        refine ⟨j / 9 - p.row / 3 * 3, j % 9 - p.column / 3 * 3,
          by omega, by omega, ?_⟩
        rw [← hval, Board.cellAt, Position.from_index]
        have e1 : p.row / 3 * 3 + (j / 9 - p.row / 3 * 3) = j / 9 := by omega
        have e2 : p.column / 3 * 3 + (j % 9 - p.column / 3 * 3) = j % 9 := by
          omega
        rw [e1, e2]
      rw [this] at hsq
      cases hsq
  · intro h
    refine ⟨⟨?_, ?_⟩, ?_⟩
    · rw [Bool.eq_false_iff]
      intro hrow
      rw [number_used_in_row_iff hWF ⟨hr9, hc9⟩] at hrow
      obtain ⟨c, hc, hval⟩ := hrow
      refine h (p.row * 9 + c) (by omega) ?_ (by rw [Board.cellAt_eq_get hc]; exact hval)
      left
      rw [sameRowIdx, hidxr]
      omega
    · rw [Bool.eq_false_iff]
      intro hcol
      rw [number_used_in_column_iff] at hcol
      obtain ⟨r, hr, hval⟩ := hcol
      refine h (r * 9 + p.column) (by omega) ?_
        (by rw [Board.cellAt_eq_get hc9]; exact hval)
      right; left
      rw [sameColIdx, hidxc]
      omega
    · rw [Bool.eq_false_iff]
      intro hsq
      rw [number_used_in_square_iff hWF ⟨hr9, hc9⟩] at hsq
      obtain ⟨ri, ci, hri, hci, hval⟩ := hsq
      refine h ((p.row / 3 * 3 + ri) * 9 + (p.column / 3 * 3 + ci))
        (by omega) ?_
        (by rw [Board.cellAt_eq_get (by omega)]; exact hval)
      right; right
      constructor
      · rw [hidxr]
        omega
      · rw [hidxc]
        omega

/-! ## Preservation of the sudoku rules -/

theorem sameUnit_symm {i j : Nat} (h : sameUnit i j) : sameUnit j i := by
  rcases h with h | h | ⟨h1, h2⟩
  · exact Or.inl h.symm
  · exact Or.inr (Or.inl h.symm)
  · exact Or.inr (Or.inr ⟨h1.symm, h2.symm⟩)

/-- Putting a digit that passes the validity check preserves the rules. -/
theorem amo_put_valid {b : Board} {p : Position} {d : Nat} (hWF : b.WF)
    (hp : p.Valid) (hamo : b.atMostOnce)
    (hval : b.valid_number_at_position p (Field.value d) = true) :
    (b.put_field p (Field.value d)).atMostOnce := by
  have hp81 := Position.idx_lt_81 hp
  have hnone := (valid_number_iff hWF hp).mp hval
  intro i j hne hsame e hpair
  obtain ⟨hci, hcj⟩ := hpair
  by_cases hii : p.idx = i.val
  · have hji : p.idx ≠ j.val := by omega
    rw [← hii, Board.cellAt_put_idx_self _ hWF hp] at hci
    rw [Board.cellAt_put_ne _ hp j.isLt hji] at hcj
    apply hnone j.val j.isLt (hii ▸ hsame)
    rw [hcj, hci]
  · rw [Board.cellAt_put_ne _ hp i.isLt hii] at hci
    by_cases hjj : p.idx = j.val
    · rw [← hjj, Board.cellAt_put_idx_self _ hWF hp] at hcj
      apply hnone i.val i.isLt (sameUnit_symm (hjj ▸ hsame))
      rw [hci, hcj]
    · rw [Board.cellAt_put_ne _ hp j.isLt hjj] at hcj
      exact hamo i j hne hsame e ⟨hci, hcj⟩

/-- Clearing any cell preserves the rules. -/
theorem amo_put_empty {b : Board} (p : Position) (hamo : b.atMostOnce) :
    (b.put_field p Field.empty).atMostOnce := by
  intro i j hne hsame e hpair
  obtain ⟨hci, hcj⟩ := hpair
  rcases Board.cellAt_put_cases b p Field.empty i.val with h1 | h1
  · rw [h1] at hci
    cases hci
  · rcases Board.cellAt_put_cases b p Field.empty j.val with h2 | h2
    · rw [h2] at hcj
      cases hcj
    · rw [h1] at hci
      rw [h2] at hcj
      exact hamo i j hne hsame e ⟨hci, hcj⟩

/-! ## Characterizing rule_violations -/

theorem mem_allPositions_iff {q : Position} :
    q ∈ allPositions ↔ ∃ i, i < 81 ∧ q = Position.from_index i := by
  rw [allPositions_eq, List.mem_map]
  constructor
  · rintro ⟨i, hi, rfl⟩
    rw [List.mem_range'_1] at hi
    exact ⟨i, by omega, rfl⟩
  · rintro ⟨i, hi, rfl⟩
    exact ⟨i, by rw [List.mem_range'_1]; omega, rfl⟩

theorem mem_rule_violations_iff {b : Board} {q : Position} :
    q ∈ b.rule_violations ↔
      q ∈ allPositions ∧ (b.get_field q).is_filled = true ∧
        (b.put_field q Field.empty).valid_number_at_position q
          (b.get_field q) = false := by
  rw [Board.rule_violations]
  simp only [List.mem_toFinset, List.mem_map, List.mem_filter, List.mem_map]
  constructor
  · rintro ⟨pf, ⟨⟨⟨pos, hpos, rfl⟩, hfil⟩, hinval⟩, rfl⟩
    refine ⟨hpos, hfil, ?_⟩
    simpa using hinval
  · rintro ⟨hmem, hfil, hinval⟩
    exact ⟨(q, b.get_field q), ⟨⟨⟨q, hmem, rfl⟩, hfil⟩, by simpa using hinval⟩,
      rfl⟩

theorem rule_violations_empty_iff {b : Board} :
    b.rule_violations = ∅ ↔
      ∀ i, i < 81 → (b.cellAt i).is_filled = true →
        (b.put_field (Position.from_index i) Field.empty).valid_number_at_position
          (Position.from_index i) (b.cellAt i) = true := by
  rw [Finset.eq_empty_iff_forall_not_mem]
  constructor
  · intro h i hi hfil
    have hnm := h (Position.from_index i)
    rw [mem_rule_violations_iff] at hnm
    by_contra hcon
    apply hnm
    refine ⟨mem_allPositions hi, hfil, ?_⟩
    rw [Bool.eq_false_iff]
    exact hcon
  · intro h q hq
    rw [mem_rule_violations_iff] at hq
    obtain ⟨hmem, hfil, hinval⟩ := hq
    rw [mem_allPositions_iff] at hmem
    obtain ⟨i, hi, rfl⟩ := hmem
    have := h i hi hfil
    rw [Board.cellAt] at this
    rw [this] at hinval
    cases hinval

/-- A board passing the rule-violation scan satisfies the rules. -/
theorem amo_of_rule_violations_empty {b : Board} (hWF : b.WF)
    (h : b.rule_violations = ∅) : b.atMostOnce := by
  intro i j hne hsame e hpair
  obtain ⟨hci, hcj⟩ := hpair
  have hi81 : i.val < 81 := i.isLt
  have hfill : (b.cellAt i.val).is_filled = true := by
    rw [hci]; rfl
  have hcheck := (rule_violations_empty_iff.mp h) i.val hi81 hfill
  rw [hci] at hcheck
  rw [valid_number_iff (Board.WF_put hWF _ _) (Position.from_index_valid hi81)]
    at hcheck
  have hsame2 : sameUnit (Position.from_index i.val).idx j.val := by
    rw [Position.idx_from_index]
    exact hsame
  have hj := hcheck j.val j.isLt hsame2
  rw [Board.cellAt_put_ne _ (Position.from_index_valid hi81) j.isLt
    (by rw [Position.idx_from_index]; exact hne)] at hj
  exact hj hcj

/-- Conversely, a rule-satisfying board with digit values 1-9 passes the
rule-violation scan. -/
theorem rule_violations_empty_of_amo {b : Board} (hWF : b.WF)
    (hcv : b.cellsValid) (hamo : b.atMostOnce) : b.rule_violations = ∅ := by
  rw [rule_violations_empty_iff]
  intro i hi hfill
  rcases hcv ⟨i, hi⟩ with hemp | ⟨d, hd⟩
  · rw [hemp] at hfill
    cases hfill
  simp only at hd
  rw [hd]
  rw [valid_number_iff (Board.WF_put hWF _ _) (Position.from_index_valid hi)]
  intro j hj hsame hval
  by_cases hij : j = i
  · subst hij
    rw [Board.cellAt_put_self _ hWF hj] at hval
    cases hval
  · rcases Board.cellAt_put_cases b (Position.from_index i) Field.empty j
      with h1 | h1
    · rw [h1] at hval
      cases hval
    · rw [h1] at hval
      have hsame3 : sameUnit i j := by
        rw [Position.idx_from_index] at hsame
        exact hsame
      exact hamo ⟨i, hi⟩ ⟨j, hj⟩ (by simpa using fun hc => hij hc.symm) hsame3
        d ⟨hd, hval⟩

/-! ## Characterization of the candidate loop -/

theorem firstValidFromAux_some_iff :
    ∀ (n v : Nat) (b : Board) (pos : Position) (d : Nat), 10 ≤ n + v →
      (firstValidFromAux n b pos v = some d ↔
        v ≤ d ∧ d ≤ 9 ∧
          b.valid_number_at_position pos (Field.from_u8 d) = true ∧
          ∀ e, v ≤ e → e < d →
            b.valid_number_at_position pos (Field.from_u8 e) = false) := by
  intro n
  induction n with
  | zero =>
      intro v b pos d hn
      simp only [firstValidFromAux]
      constructor
      · intro h; cases h
      · rintro ⟨h1, h2, _⟩; omega
  | succ n ih =>
      intro v b pos d hn
      simp only [firstValidFromAux]
      by_cases hv9 : v ≤ 9
      · rw [if_pos hv9]
        by_cases hval : b.valid_number_at_position pos (Field.from_u8 v) = true
        · rw [if_pos hval]
          constructor
          · intro h
            cases h
            exact ⟨le_refl v, hv9, hval, fun e he1 he2 => by omega⟩
          · rintro ⟨h1, h2, h3, h4⟩
            rcases Nat.eq_or_lt_of_le h1 with heq | hlt
            · rw [heq]
            · have := h4 v (le_refl v) hlt
              rw [hval] at this
              cases this
        · rw [if_neg hval]
          rw [Bool.not_eq_true] at hval
          rw [ih (v + 1) b pos d (by omega)]
          constructor
          · rintro ⟨h1, h2, h3, h4⟩
            refine ⟨by omega, h2, h3, ?_⟩
            intro e he1 he2
            rcases Nat.eq_or_lt_of_le he1 with heq | hlt
            · rw [← heq]; exact hval
            · exact h4 e hlt he2
          · rintro ⟨h1, h2, h3, h4⟩
            have hne : v ≠ d := by
              intro hc
              rw [← hc] at h3
              rw [h3] at hval
              cases hval
            exact ⟨by omega, h2, h3, fun e he1 he2 => h4 e (by omega) he2⟩
      · rw [if_neg hv9]
        constructor
        · intro h; cases h
        · rintro ⟨h1, h2, _⟩; omega

theorem firstValidFrom_some_iff {b : Board} {pos : Position} {v d : Nat} :
    firstValidFrom b pos v = some d ↔
      v ≤ d ∧ d ≤ 9 ∧
        b.valid_number_at_position pos (Field.from_u8 d) = true ∧
        ∀ e, v ≤ e → e < d →
          b.valid_number_at_position pos (Field.from_u8 e) = false :=
  firstValidFromAux_some_iff 10 v b pos d (by omega)

theorem firstValidFromAux_none_iff :
    ∀ (n v : Nat) (b : Board) (pos : Position), 10 ≤ n + v →
      (firstValidFromAux n b pos v = none ↔
        ∀ e, v ≤ e → e ≤ 9 →
          b.valid_number_at_position pos (Field.from_u8 e) = false) := by
  intro n
  induction n with
  | zero =>
      intro v b pos hn
      simp only [firstValidFromAux]
      constructor
      · intro _ e he1 he2; omega
      · intro _; trivial
  | succ n ih =>
      intro v b pos hn
      simp only [firstValidFromAux]
      by_cases hv9 : v ≤ 9
      · rw [if_pos hv9]
        by_cases hval : b.valid_number_at_position pos (Field.from_u8 v) = true
        · rw [if_pos hval]
          constructor
          · intro h; cases h
          · intro h
            have := h v (le_refl v) hv9
            rw [hval] at this
            cases this
        · rw [if_neg hval]
          rw [Bool.not_eq_true] at hval
          rw [ih (v + 1) b pos (by omega)]
          constructor
          · intro h e he1 he2
            rcases Nat.eq_or_lt_of_le he1 with heq | hlt
            · rw [← heq]; exact hval
            · exact h e hlt he2
          · intro h e he1 he2
            exact h e (by omega) he2
      · rw [if_neg hv9]
        constructor
        · intro _ e he1 he2; omega
        · intro _; rfl

theorem firstValidFrom_none_iff {b : Board} {pos : Position} {v : Nat} :
    firstValidFrom b pos v = none ↔
      ∀ e, v ≤ e → e ≤ 9 →
        b.valid_number_at_position pos (Field.from_u8 e) = false :=
  firstValidFromAux_none_iff 10 v b pos (by omega)

/-! ## The execution invariant -/

/-- The position carried by an instruction. -/
def Instruction.position : Instruction → Position
  | .TryValue p _ => p
  | .BackTo p => p

/-- Every cell before linear index `n` is filled. -/
def filledBelow (b : Board) (n : Nat) : Prop :=
  ∀ j, j < n → j < 81 → (b.cellAt j).is_filled = true

/-- The instruction's position has linear index at most `n`. -/
def posLE (n : Nat) (ins : Instruction) : Prop := ins.position.idx ≤ n

/-- The inductive well-formedness of an execution state: every `TryValue`
frame sits at a valid position with all earlier cells filled, positions are
bounded down the stack, and `BackTo` targets are below the bound. -/
def execInvC (b : Board) : Nat → List Instruction → Prop
  | _, [] => True
  | _, .TryValue p _ :: rest =>
      p.Valid ∧ filledBelow b p.idx ∧ (∀ ins ∈ rest, posLE p.idx ins) ∧
        execInvC b p.idx rest
  | cur, .BackTo c :: rest =>
      c.Valid ∧ c.idx ≤ cur ∧ (∀ ins ∈ rest, posLE cur ins) ∧
        execInvC b c.idx rest

theorem filledBelow_put_of_filled {b : Board} {n : Nat} {p : Position}
    {f : Field} (hf : f.is_filled = true) (h : filledBelow b n) :
    filledBelow (b.put_field p f) n := by
  intro j h1 h2
  rcases Board.cellAt_put_cases b p f j with hc | hc
  · rw [hc]; exact hf
  · rw [hc]; exact h j h1 h2

theorem filledBelow_clear_of_le {b : Board} {n : Nat} {p : Position}
    (hp : p.Valid) (hle : n ≤ p.idx) (h : filledBelow b n) :
    filledBelow (b.put_field p Field.empty) n := by
  intro j h1 h2
  rw [Board.cellAt_put_ne _ hp h2 (by omega)]
  exact h j h1 h2

theorem execInvC_fill {b : Board} {p : Position} {d : Nat} :
    ∀ (st : List Instruction) (k : Nat), execInvC b k st →
      execInvC (b.put_field p (Field.value d)) k st := by
  intro st
  induction st with
  | nil => intro k h; trivial
  | cons head rest ih =>
      intro k h
      cases head with
      | TryValue q v =>
          obtain ⟨h1, h2, h3, h4⟩ := h
          exact ⟨h1, filledBelow_put_of_filled rfl h2, h3, ih _ h4⟩
      | BackTo c =>
          obtain ⟨h1, h2, h3, h4⟩ := h
          exact ⟨h1, h2, h3, ih _ h4⟩

theorem execInvC_clear {b : Board} {q : Position} (hq : q.Valid) :
    ∀ (st : List Instruction) (k : Nat), (∀ ins ∈ st, posLE q.idx ins) →
      execInvC b k st → execInvC (b.put_field q Field.empty) k st := by
  intro st
  induction st with
  | nil => intro k _ h; trivial
  | cons head rest ih =>
      intro k hall h
      cases head with
      | TryValue p v =>
          obtain ⟨h1, h2, h3, h4⟩ := h
          have hple : p.idx ≤ q.idx := hall _ (List.mem_cons_self _ _)
          exact ⟨h1, filledBelow_clear_of_le hq hple h2, h3,
            ih _ (fun ins hins => hall ins (List.mem_cons_of_mem _ hins)) h4⟩
      | BackTo c =>
          obtain ⟨h1, h2, h3, h4⟩ := h
          exact ⟨h1, h2, h3,
            ih _ (fun ins hins => hall ins (List.mem_cons_of_mem _ hins)) h4⟩

theorem execInvC_valid :
    ∀ (st : List Instruction) (b : Board) (k : Nat), execInvC b k st →
      ∀ ins ∈ st, ins.position.Valid := by
  intro st
  induction st with
  | nil => intro b k _ ins hins; cases hins
  | cons head rest ih =>
      intro b k h ins hins
      rcases List.mem_cons.mp hins with heq | hmem
      · subst heq
        cases ins with
        | TryValue p v => exact h.1
        | BackTo c => exact h.1
      · cases head with
        | TryValue p v => exact ih b _ h.2.2.2 ins hmem
        | BackTo c => exact ih b _ h.2.2.2 ins hmem

/-! ## Main execution lemmas -/

/-- Executing the stack from a well-formed execution state, when it places a
field, lands in a state whose board is well-formed, whose cursor is the
placed position with every earlier cell filled, and which is again a
well-formed execution state. -/
theorem exec_ok :
    ∀ (st : List Instruction) (b : Board) (cur : Position), b.WF → cur.Valid →
      execInvC b cur.idx st →
      ∀ r s', execute_stack st b cur = (r, s') →
        r = WhatHappened.PutNewFieldOnBoard →
        s'.board.WF ∧ s'.current_position.Valid ∧
          filledBelow s'.board s'.current_position.idx ∧
          (∀ ins ∈ s'.stack, posLE s'.current_position.idx ins) ∧
          execInvC s'.board s'.current_position.idx s'.stack := by
  intro st
  induction st with
  | nil =>
      intro b cur hWF hcv hinv r s' hex hput
      simp only [execute_stack] at hex
      cases hex
      cases hput
  | cons head rest ih =>
      intro b cur hWF hcv hinv r s' hex hput
      cases head with
      | TryValue pos v =>
          obtain ⟨hpv, hfb, hall, hinv'⟩ := hinv
          simp only [execute_stack] at hex
          cases hfv : firstValidFrom b pos v with
          | some d =>
              rw [hfv] at hex
              simp only at hex
              cases hex
              refine ⟨Board.WF_put hWF _ _, hpv,
                filledBelow_put_of_filled rfl hfb, ?_, ?_⟩
              · intro ins hins
                by_cases hd9 : d < 9
                · rw [if_pos hd9] at hins
                  rcases List.mem_cons.mp hins with heq | hmem
                  · subst heq
                    exact le_refl _
                  · exact hall ins hmem
                · rw [if_neg hd9] at hins
                  exact hall ins hins
              · by_cases hd9 : d < 9
                · rw [if_pos hd9]
                  exact ⟨hpv, filledBelow_put_of_filled rfl hfb, hall,
                    execInvC_fill rest _ hinv'⟩
                · rw [if_neg hd9]
                  exact execInvC_fill rest _ hinv'
          | none =>
              rw [hfv] at hex
              exact ih b pos hWF hpv hinv' r s' hex hput
      | BackTo c =>
          obtain ⟨hcv', hle, hall, hinv'⟩ := hinv
          simp only [execute_stack] at hex
          refine ih (b.put_field cur Field.empty) c (Board.WF_put hWF _ _)
            hcv' ?_ r s' hex hput
          exact execInvC_clear hcv rest c.idx hall hinv'

/-- Executing the stack preserves well-formedness and the sudoku rules of
the working board, and the validity of every stack position. -/
theorem exec_amo :
    ∀ (st : List Instruction) (b : Board) (cur : Position), b.WF →
      (∀ ins ∈ st, ins.position.Valid) → b.atMostOnce →
      ∀ r s', execute_stack st b cur = (r, s') →
        s'.board.WF ∧ s'.board.atMostOnce := by
  intro st
  induction st with
  | nil =>
      intro b cur hWF hvalid hamo r s' hex
      simp only [execute_stack] at hex
      cases hex
      exact ⟨hWF, hamo⟩
  | cons head rest ih =>
      intro b cur hWF hvalid hamo r s' hex
      cases head with
      | TryValue pos v =>
          simp only [execute_stack] at hex
          cases hfv : firstValidFrom b pos v with
          | some d =>
              rw [hfv] at hex
              simp only at hex
              cases hex
              have hpv : pos.Valid :=
                hvalid (Instruction.TryValue pos v) (List.mem_cons_self _ _)
              obtain ⟨_, _, hvn, _⟩ := firstValidFrom_some_iff.mp hfv
              exact ⟨Board.WF_put hWF _ _, amo_put_valid hWF hpv hamo hvn⟩
          | none =>
              rw [hfv] at hex
              exact ih b pos hWF
                (fun ins hins => hvalid ins (List.mem_cons_of_mem _ hins))
                hamo r s' hex
      | BackTo c =>
          simp only [execute_stack] at hex
          exact ih (b.put_field cur Field.empty) c (Board.WF_put hWF _ _)
            (fun ins hins => hvalid ins (List.mem_cons_of_mem _ hins))
            (amo_put_empty cur hamo) r s' hex

/-! ## A trace relation for the non-productive pops of execute_stack -/

/-- One non-productive pop of `execute_stack`: either a `TryValue` frame
with no remaining valid candidate (the cursor moves to the frame's
position), or a `BackTo` frame (the cell at the cursor is cleared and the
cursor moves back). -/
inductive ExecStep : BState → BState → Prop
  | tryFail {b : Board} {cur pos : Position} {v : Nat}
      {rest : List Instruction} (h : firstValidFrom b pos v = none) :
      ExecStep ⟨b, cur, .TryValue pos v :: rest⟩ ⟨b, pos, rest⟩
  | back {b : Board} {cur c : Position} {rest : List Instruction} :
      ExecStep ⟨b, cur, .BackTo c :: rest⟩
        ⟨b.put_field cur Field.empty, c, rest⟩

theorem execute_stack_of_execStep {s t : BState} (h : ExecStep s t) :
    execute_stack s.stack s.board s.current_position =
      execute_stack t.stack t.board t.current_position := by
  cases h with
  | tryFail hfv =>
      simp only [execute_stack]
      rw [hfv]
  | back =>
      simp only [execute_stack]

/-- Whenever `execute_stack` reports a placement, some sequence of
non-productive pops reaches a `TryValue` frame that has a valid candidate,
and the resulting state places exactly that frame's least valid candidate. -/
theorem exec_trace :
    ∀ (st : List Instruction) (b : Board) (cur : Position) (s' : BState),
      execute_stack st b cur = (WhatHappened.PutNewFieldOnBoard, s') →
      ∃ (b0 : Board) (cur0 pos : Position) (v d : Nat)
        (rest : List Instruction),
        Relation.ReflTransGen ExecStep ⟨b, cur, st⟩
          ⟨b0, cur0, .TryValue pos v :: rest⟩ ∧
        firstValidFrom b0 pos v = some d ∧
        s' = ⟨b0.put_field pos (Field.from_u8 d), pos,
          if d < 9 then .TryValue pos (d + 1) :: rest else rest⟩ := by
  intro st
  induction st with
  | nil =>
      intro b cur s' hex
      simp only [execute_stack] at hex
      cases hex
  | cons head rest ih =>
      intro b cur s' hex
      cases head with
      | TryValue pos v =>
          simp only [execute_stack] at hex
          cases hfv : firstValidFrom b pos v with
          | some d =>
              rw [hfv] at hex
              simp only at hex
              cases hex
              exact ⟨b, cur, pos, v, d, rest, Relation.ReflTransGen.refl,
                hfv, rfl⟩
          | none =>
              rw [hfv] at hex
              obtain ⟨b0, cur0, pos', v', d, rest', htr, hfv', hs⟩ :=
                ih b pos s' hex
              exact ⟨b0, cur0, pos', v', d, rest',
                Relation.ReflTransGen.head (ExecStep.tryFail hfv) htr, hfv', hs⟩
      | BackTo c =>
          simp only [execute_stack] at hex
          obtain ⟨b0, cur0, pos', v', d, rest', htr, hfv', hs⟩ :=
            ih (b.put_field cur Field.empty) c s' hex
          exact ⟨b0, cur0, pos', v', d, rest',
            Relation.ReflTransGen.head ExecStep.back htr, hfv', hs⟩

/-! ## The per-step state invariant and reachability -/

/-- The invariant maintained by the iterator state across calls to `next`. -/
def StateInv (s : BState) : Prop :=
  s.board.WF ∧ s.current_position.Valid ∧
    filledBelow s.board s.current_position.idx ∧
    (∀ ins ∈ s.stack, posLE s.current_position.idx ins) ∧
    execInvC s.board s.current_position.idx s.stack

theorem initState_inv {b : Board} (hWF : b.WF) : StateInv (initState b) := by
  have hv : (initState b).current_position.Valid := by
    show Position.Valid ⟨0, 0⟩
    constructor <;> · show 0 < 9; omega
  refine ⟨hWF, hv, ?_, ?_, trivial⟩
  · intro j h1 h2
    simp only [initState, Position.idx] at h1
    omega
  · intro ins hins
    cases hins

/-- Every emitted pair consists of the successor state's board and the
completeness flag computed from its cursor. -/
theorem nextStep_emit {s : BState} {pr : Board × Bool} {s' : BState}
    (h : nextStep s = some (pr, s')) :
    pr.1 = s'.board ∧
      pr.2 = (s'.board.next_empty_field s'.current_position).isNone := by
  unfold nextStep at h
  cases hne : s.board.next_empty_field s.current_position with
  | some p =>
      rw [hne] at h
      simp only [prepare_stack] at h
      cases hex : execute_stack
          (Instruction.TryValue p 1 ::
            Instruction.BackTo s.current_position :: s.stack)
          s.board s.current_position with
      | mk r s2 =>
          rw [hex] at h
          cases r with
          | PutNewFieldOnBoard =>
              simp only at h
              cases h
              exact ⟨rfl, rfl⟩
          | RanOutOfStack => cases h
  | none =>
      rw [hne] at h
      simp only at h
      cases hex : execute_stack s.stack s.board s.current_position with
      | mk r s2 =>
          rw [hex] at h
          cases r with
          | PutNewFieldOnBoard =>
              simp only at h
              cases h
              exact ⟨rfl, rfl⟩
          | RanOutOfStack => cases h

theorem nextStep_inv {s : BState} {pr : Board × Bool} {s' : BState}
    (hinv : StateInv s) (h : nextStep s = some (pr, s')) : StateInv s' := by
  obtain ⟨hWF, hcv, hfb, hall, heinv⟩ := hinv
  unfold nextStep at h
  cases hne : s.board.next_empty_field s.current_position with
  | some p =>
      rw [hne] at h
      simp only [prepare_stack] at h
      obtain ⟨hqv, hqnf, hqge, hqlt, hqempty, hqfill⟩ :=
        next_empty_field_some hcv hne
      have hfbp : filledBelow s.board p.idx := by
        intro j h1 h2
        by_cases hj : j < s.current_position.idx
        · exact hfb j hj h2
        · exact hqfill j (by omega) h1
      have hinv1 : execInvC s.board s.current_position.idx
          (Instruction.TryValue p 1 ::
            Instruction.BackTo s.current_position :: s.stack) := by
        refine ⟨hqv, hfbp, ?_, hcv, hqge,
          fun ins hins => le_trans (hall ins hins) hqge, heinv⟩
        intro ins hins
        rcases List.mem_cons.mp hins with heq | hmem
        · subst heq
          exact hqge
        · exact le_trans (hall ins hmem) hqge
      cases hex : execute_stack
          (Instruction.TryValue p 1 ::
            Instruction.BackTo s.current_position :: s.stack)
          s.board s.current_position with
      | mk r s2 =>
          rw [hex] at h
          cases r with
          | PutNewFieldOnBoard =>
              simp only at h
              cases h
              exact exec_ok _ _ _ hWF hcv hinv1 _ _ hex rfl
          | RanOutOfStack => cases h
  | none =>
      rw [hne] at h
      simp only at h
      cases hex : execute_stack s.stack s.board s.current_position with
      | mk r s2 =>
          rw [hex] at h
          cases r with
          | PutNewFieldOnBoard =>
              simp only at h
              cases h
              exact exec_ok _ _ _ hWF hcv heinv _ _ hex rfl
          | RanOutOfStack => cases h

theorem nextStep_amo {s : BState} {pr : Board × Bool} {s' : BState}
    (hinv : StateInv s) (hamo : s.board.atMostOnce)
    (h : nextStep s = some (pr, s')) : s'.board.atMostOnce := by
  obtain ⟨hWF, hcv, hfb, hall, heinv⟩ := hinv
  unfold nextStep at h
  cases hne : s.board.next_empty_field s.current_position with
  | some p =>
      rw [hne] at h
      simp only [prepare_stack] at h
      obtain ⟨hqv, _, _, _, _, _⟩ := next_empty_field_some hcv hne
      have hvalid : ∀ ins ∈ (Instruction.TryValue p 1 ::
          Instruction.BackTo s.current_position :: s.stack),
          ins.position.Valid := by
        intro ins hins
        rcases List.mem_cons.mp hins with heq | hmem
        · subst heq
          exact hqv
        · rcases List.mem_cons.mp hmem with heq2 | hmem2
          · subst heq2
            exact hcv
          · exact execInvC_valid _ _ _ heinv ins hmem2
      cases hex : execute_stack
          (Instruction.TryValue p 1 ::
            Instruction.BackTo s.current_position :: s.stack)
          s.board s.current_position with
      | mk r s2 =>
          rw [hex] at h
          cases r with
          | PutNewFieldOnBoard =>
              simp only at h
              cases h
              exact (exec_amo _ _ _ hWF hvalid hamo _ _ hex).2
          | RanOutOfStack => cases h
  | none =>
      rw [hne] at h
      simp only at h
      cases hex : execute_stack s.stack s.board s.current_position with
      | mk r s2 =>
          rw [hex] at h
          cases r with
          | PutNewFieldOnBoard =>
              simp only at h
              cases h
              exact (exec_amo _ _ _ hWF
                (execInvC_valid _ _ _ heinv) hamo _ _ hex).2
          | RanOutOfStack => cases h

/-- The states reachable from a fresh iterator on board `b0` by repeated
calls to `next`. -/
inductive Reaches (b0 : Board) : BState → Prop
  | refl : Reaches b0 (initState b0)
  | tail {s : BState} {pr : Board × Bool} {s' : BState} :
      Reaches b0 s → nextStep s = some (pr, s') → Reaches b0 s'

theorem reaches_inv {b0 : Board} {s : BState} (hWF : b0.WF)
    (h : Reaches b0 s) : StateInv s := by
  induction h with
  | refl => exact initState_inv hWF
  | tail hr hstep ih => exact nextStep_inv ih hstep

theorem reaches_amo {b0 : Board} {s : BState} (hWF : b0.WF)
    (hamo : b0.atMostOnce) (h : Reaches b0 s) : s.board.atMostOnce := by
  induction h with
  | refl => exact hamo
  | tail hr hstep ih => exact nextStep_amo (reaches_inv hWF hr) ih hstep

/-! ## Characterizing the lenient parse -/

/-- The field an input entry contributes to the leniently built board. -/
def parsedCell : Option Nat → Field
  | some v => if 1 ≤ v ∧ v ≤ 9 then Field.value v else Field.empty
  | none => Field.empty

/-- Whether an input entry is an invalid character (a `Some` outside 1-9). -/
def badEntry : Option Nat → Bool
  | some v => !(decide (1 ≤ v ∧ v ≤ 9))
  | none => false

/-- The board produced by the puts of the lenient loop over `l`, the `k`-th
entry landing at linear index `k`. -/
def putsFrom : List (Option Nat) → Nat → Board → Board
  | [], _, b => b
  | x :: xs, k, b =>
      putsFrom xs (k + 1) (b.put_field (Position.from_index k) (parsedCell x))

/-- The invalid-character error set produced by the lenient loop over `l`. -/
def errsFrom : List (Option Nat) → Nat → Finset (Position × FieldParseError)
  | [], _ => ∅
  | x :: xs, k =>
      (if badEntry x then
        {(Position.from_index k, FieldParseError.InvalidCharacter)}
      else ∅) ∪ errsFrom xs (k + 1)

theorem lenientStep_eq (b : Board) (e : Finset (Position × FieldParseError))
    (k : Nat) (x : Option Nat) :
    lenientStep (b, e) (k, x) =
      (b.put_field (Position.from_index k) (parsedCell x),
        if badEntry x then
          insert (Position.from_index k, FieldParseError.InvalidCharacter) e
        else e) := by
  cases x with
  | none => simp [lenientStep, parsedCell, badEntry]
  | some v =>
      by_cases hv : 1 ≤ v ∧ v ≤ 9
      · simp [lenientStep, parsedCell, badEntry, Field.new, hv]
      · simp [lenientStep, parsedCell, badEntry, Field.new, hv]

theorem lenientFold_aux :
    ∀ (l : List (Option Nat)) (k : Nat) (b : Board)
      (e : Finset (Position × FieldParseError)),
      (List.enumFrom k l).foldl lenientStep (b, e) =
        (putsFrom l k b, e ∪ errsFrom l k) := by
  intro l
  induction l with
  | nil =>
      intro k b e
      simp [putsFrom, errsFrom]
  | cons x xs ih =>
      intro k b e
      show List.foldl lenientStep (lenientStep (b, e) (k, x))
        (List.enumFrom (k + 1) xs) = _
      rw [lenientStep_eq]
      rw [ih (k + 1)]
      simp only [putsFrom, errsFrom]
      congr 1
      by_cases hbad : badEntry x
      · rw [if_pos hbad, if_pos hbad]
        ext pe
        simp only [Finset.mem_union, Finset.mem_insert, Finset.mem_singleton]
        tauto
      · rw [if_neg hbad, if_neg hbad, Finset.empty_union]

theorem lenientFold_eq (input : List (Option Nat)) :
    lenientFold input = (putsFrom input 0 Board.mkEmpty, errsFrom input 0) := by
  rw [lenientFold]
  have henum : input.enum = List.enumFrom 0 input := rfl
  rw [henum, lenientFold_aux]
  rw [Finset.empty_union]

theorem putsFrom_WF : ∀ (l : List (Option Nat)) (k : Nat) (b : Board),
    b.WF → (putsFrom l k b).WF := by
  intro l
  induction l with
  | nil => intro k b h; exact h
  | cons x xs ih => intro k b h; exact ih _ _ (Board.WF_put h _ _)

theorem putsFrom_cellAt :
    ∀ (l : List (Option Nat)) (k : Nat) (b : Board), b.WF →
      k + l.length ≤ 81 → ∀ j, j < 81 →
        (putsFrom l k b).cellAt j =
          if k ≤ j ∧ j < k + l.length then parsedCell (l.getD (j - k) none)
          else b.cellAt j := by
  intro l
  induction l with
  | nil =>
      intro k b hWF hle j hj
      simp only [putsFrom, List.length_nil]
      rw [if_neg (by omega)]
  | cons x xs ih =>
      intro k b hWF hle j hj
      simp only [putsFrom, List.length_cons]
      have hk81 : k < 81 := by
        simp only [List.length_cons] at hle
        omega
      rw [ih (k + 1) _ (Board.WF_put hWF _ _) (by simp at hle ⊢; omega) j hj]
      by_cases h1 : k + 1 ≤ j ∧ j < k + 1 + xs.length
      · rw [if_pos h1, if_pos (by omega)]
        have hsub : j - k = (j - (k + 1)) + 1 := by omega
        rw [hsub]
        rfl
      · rw [if_neg h1]
        by_cases h2 : j = k
        · subst h2
          rw [Board.cellAt_put_self _ hWF hk81, if_pos (by omega)]
          have hsub : j - j = 0 := by omega
          rw [hsub]
          rfl
        · rw [Board.cellAt_put_ne _ (Position.from_index_valid hk81) hj
            (by rw [Position.idx_from_index]; omega)]
          rw [if_neg (by omega)]

theorem errsFrom_mem :
    ∀ (l : List (Option Nat)) (k : Nat)
      (pe : Position × FieldParseError),
      pe ∈ errsFrom l k ↔
        ∃ off, off < l.length ∧ badEntry (l.getD off none) = true ∧
          pe = (Position.from_index (k + off), FieldParseError.InvalidCharacter) := by
  intro l
  induction l with
  | nil =>
      intro k pe
      simp [errsFrom]
  | cons x xs ih =>
      intro k pe
      simp only [errsFrom, Finset.mem_union]
      constructor
      · intro h
        rcases h with h | h
        · by_cases hbad : badEntry x
          · rw [if_pos hbad, Finset.mem_singleton] at h
            exact ⟨0, by simp, by simpa using hbad, by simpa using h⟩
          · rw [if_neg hbad] at h
            cases h
        · obtain ⟨off, h1, h2, h3⟩ := (ih (k + 1) pe).mp h
          refine ⟨off + 1, by simp; omega, by simpa using h2, ?_⟩
          rw [h3]
          have harith : k + 1 + off = k + (off + 1) := by omega
          rw [harith]
      · rintro ⟨off, h1, h2, h3⟩
        cases off with
        | zero =>
            left
            have hbad : badEntry x = true := by simpa using h2
            rw [if_pos hbad, Finset.mem_singleton]
            simpa using h3
        | succ off =>
            right
            apply (ih (k + 1) pe).mpr
            refine ⟨off, by simp at h1; omega, by simpa using h2, ?_⟩
            rw [h3]
            have harith : k + (off + 1) = k + 1 + off := by omega
            rw [harith]

/-! ## Facts about the whole parse -/

/-- The board built by the lenient parse. -/
def lenientBoard (input : List (Option Nat)) : Board := (lenientFold input).1

theorem lenientFold_fst (input : List (Option Nat)) :
    (lenientFold input).1 = lenientBoard input := rfl

theorem lenientFold_snd (input : List (Option Nat)) :
    (lenientFold input).2 = errsFrom input 0 := by
  rw [lenientFold_eq]

theorem lenientBoard_WF (input : List (Option Nat)) :
    (lenientBoard input).WF := by
  rw [lenientBoard, lenientFold_eq]
  exact putsFrom_WF _ _ _ Board.mkEmpty_WF

theorem mkEmpty_cellAt {j : Nat} (hj : j < 81) :
    Board.mkEmpty.cellAt j = Field.empty := by
  have hr : j / 9 < 9 := by omega
  have hc : j % 9 < 9 := by omega
  have h1 : Board.mkEmpty.getD (j / 9) [] = List.replicate 9 Field.empty := by
    rw [Board.mkEmpty, List.getD_eq_getElem _ _ (by simpa using hr),
      List.getElem_replicate]
  rw [Board.cellAt, Board.get_field]
  simp only [Position.from_index]
  rw [h1, List.getD_eq_getElem _ _ (by simpa using hc),
    List.getElem_replicate]

theorem lenientBoard_cellAt {input : List (Option Nat)}
    (hlen : input.length = 81) {j : Nat} (hj : j < 81) :
    (lenientBoard input).cellAt j = parsedCell (input.getD j none) := by
  rw [lenientBoard, lenientFold_eq]
  show (putsFrom input 0 Board.mkEmpty).cellAt j = _
  rw [putsFrom_cellAt input 0 _ Board.mkEmpty_WF (by omega) j hj,
    if_pos ⟨by omega, by omega⟩]
  simp

theorem lenientBoard_cellsValid {input : List (Option Nat)}
    (hlen : input.length = 81) : (lenientBoard input).cellsValid := by
  intro i
  rw [lenientBoard_cellAt hlen i.isLt]
  cases hx : input.getD i.val none with
  | none => left; rfl
  | some v =>
      by_cases hv : 1 ≤ v ∧ v ≤ 9
      · right
        refine ⟨⟨v - 1, by omega⟩, ?_⟩
        simp only [parsedCell, if_pos hv]
        congr 1
        omega
      · left
        simp only [parsedCell, if_neg hv]

theorem tryFromOptVec_len {input : List (Option Nat)}
    (h : input.length ≠ 81) :
    tryFromOptVec input = .error .InvalidLength := by
  rw [tryFromOptVec, if_pos h]

/-- The combined error set of the parse. -/
def allErrors (input : List (Option Nat)) :
    Finset (Position × FieldParseError) :=
  errsFrom input 0 ∪
    (lenientBoard input).rule_violations.image
      (fun pos => (pos, FieldParseError.SudokuRuleViolation))

theorem tryFromOptVec_of_len {input : List (Option Nat)}
    (hlen : input.length = 81) :
    tryFromOptVec input =
      (if allErrors input = ∅ then Except.ok (lenientBoard input)
       else Except.error (.ParseErrors (allErrors input))) := by
  rw [tryFromOptVec, if_neg (by omega)]
  show (if (lenientFold input).2 ∪ _ = ∅ then
      Except.ok (lenientFold input).1 else _) = _
  rw [lenientFold_snd, lenientFold_fst]
  rfl

theorem allErrors_empty_iff {input : List (Option Nat)} :
    allErrors input = ∅ ↔
      errsFrom input 0 = ∅ ∧ (lenientBoard input).rule_violations = ∅ := by
  rw [allErrors, Finset.union_eq_empty, Finset.image_eq_empty]

theorem tryFromOptVec_ok_inv {input : List (Option Nat)} {b : Board}
    (h : tryFromOptVec input = .ok b) :
    input.length = 81 ∧ b = lenientBoard input ∧ errsFrom input 0 = ∅ ∧
      b.rule_violations = ∅ := by
  by_cases hlen : input.length = 81
  · rw [tryFromOptVec_of_len hlen] at h
    split at h
    · rename_i hcond
      cases h
      obtain ⟨h1, h2⟩ := allErrors_empty_iff.mp hcond
      exact ⟨hlen, rfl, h1, h2⟩
    · cases h
  · rw [tryFromOptVec_len hlen] at h
    cases h

/-- A successfully parsed board is well-formed, has digit values 1-9, and
satisfies the sudoku rules. -/
theorem tryFromOptVec_ok_good {input : List (Option Nat)} {b : Board}
    (h : tryFromOptVec input = .ok b) :
    b.WF ∧ b.cellsValid ∧ b.atMostOnce := by
  obtain ⟨hlen, rfl, herr, hrv⟩ := tryFromOptVec_ok_inv h
  exact ⟨lenientBoard_WF input, lenientBoard_cellsValid hlen,
    amo_of_rule_violations_empty (lenientBoard_WF input) hrv⟩

theorem errsFrom_empty_iff {input : List (Option Nat)} :
    errsFrom input 0 = ∅ ↔
      ∀ off, off < input.length → badEntry (input.getD off none) = false := by
  rw [Finset.eq_empty_iff_forall_not_mem]
  constructor
  · intro h off hoff
    rw [Bool.eq_false_iff]
    intro hbad
    exact h _ ((errsFrom_mem input 0 _).mpr ⟨off, hoff, hbad, by rw [Nat.zero_add]⟩)
  · intro h pe hpe
    obtain ⟨off, h1, h2, h3⟩ := (errsFrom_mem input 0 pe).mp hpe
    rw [h off h1] at h2
    cases h2

/-! ## The byte and string parse layers -/

/-- The byte-to-entry mapping of `TryFrom<Vec<u8>>`. -/
def byteEntry (c : Nat) : Option Nat :=
  if c = 45 ∨ c = 32 then none
  else if 49 ≤ c ∧ c ≤ 57 then some (c - 48)
  else some 255

theorem tryFromBytes_eq (input : List Nat) :
    tryFromBytes input = tryFromOptVec (input.map byteEntry) := rfl

theorem tryFromBytes_len_iff {input : List Nat} :
    tryFromBytes input = .error .InvalidLength ↔ input.length ≠ 81 := by
  rw [tryFromBytes_eq]
  constructor
  · intro h hlen
    have hml : (input.map byteEntry).length = 81 := by
      rw [List.length_map]; exact hlen
    rw [tryFromOptVec_of_len hml] at h
    split at h
    · cases h
    · cases h
  · intro h
    exact tryFromOptVec_len (by rw [List.length_map]; exact h)

theorem utf8Encode_ascii {c : Nat} (h : c < 128) : utf8Encode c = [c] := by
  rw [utf8Encode, if_pos (by omega)]

theorem flatMap_utf8_ascii {l : List Nat} (h : ∀ c ∈ l, c < 128) :
    l.flatMap utf8Encode = l := by
  induction l with
  | nil => rfl
  | cons c cs ih =>
      rw [List.flatMap_cons, utf8Encode_ascii (h c (List.mem_cons_self _ _)),
        ih (fun x hx => h x (List.mem_cons_of_mem _ hx))]
      rfl

theorem tryFromStr_eq_bytes {s : List Nat}
    (h : ∀ c ∈ s, isWhitespaceChar c = false ∧ c < 128) :
    tryFromStr s = tryFromBytes s := by
  rw [tryFromStr]
  have hfil : s.filter (fun c => !isWhitespaceChar c) = s :=
    List.filter_eq_self.mpr (fun c hc => by rw [(h c hc).1]; rfl)
  rw [hfil, flatMap_utf8_ascii (fun c hc => (h c hc).2)]

/-! ## Duplicates in a row are reported at both positions -/

theorem dup_row_in_violations_one {input : List (Option Nat)}
    (hlen : input.length = 81) {i j d : Nat}
    (hi : i < 81) (hj : j < 81) (hne : i ≠ j) (hrow : i / 9 = j / 9)
    (hvi : input.getD i none = some d) (hvj : input.getD j none = some d)
    (hd : 1 ≤ d ∧ d ≤ 9) :
    Position.from_index i ∈ (lenientBoard input).rule_violations := by
  have hWFl := lenientBoard_WF input
  have hci : (lenientBoard input).cellAt i = Field.value d := by
    rw [lenientBoard_cellAt hlen hi, hvi]
    simp [parsedCell, hd]
  have hcj : (lenientBoard input).cellAt j = Field.value d := by
    rw [lenientBoard_cellAt hlen hj, hvj]
    simp [parsedCell, hd]
  rw [mem_rule_violations_iff]
  refine ⟨mem_allPositions hi, ?_, ?_⟩
  · rw [Board.get_field_eq_cellAt (Position.from_index_valid hi),
      Position.idx_from_index, hci]
    rfl
  · rw [Bool.eq_false_iff]
    intro hval
    rw [Board.get_field_eq_cellAt (Position.from_index_valid hi),
      Position.idx_from_index, hci] at hval
    rw [valid_number_iff (Board.WF_put hWFl _ _)
      (Position.from_index_valid hi)] at hval
    have hji := hval j hj
      (by rw [Position.idx_from_index]; exact Or.inl hrow)
    rw [Board.cellAt_put_ne _ (Position.from_index_valid hi) hj
      (by rw [Position.idx_from_index]; exact hne)] at hji
    exact hji hcj

/-! ## Cell streams and the round trip -/

/-- The 81-character stream obtained from a board's cell values, writing
each empty cell as the byte `e` and each filled cell as its digit. -/
def streamOf (e : Nat) (b : Board) : List Nat :=
  (List.range 81).map (fun i =>
    match b.cellAt i with
    | .empty => e
    | .value v => 48 + v)

/-- The stream writing empties as `'-'`. -/
def cellStream (b : Board) : List Nat := streamOf 45 b

/-- The stream writing empties as a plain space. -/
def spaceStream (b : Board) : List Nat := streamOf 32 b

theorem getD_map_range {α : Type} (f : Nat → α) {j n : Nat} (hj : j < n)
    (d : α) : ((List.range n).map f).getD j d = f j := by
  rw [List.getD_eq_getElem _ _ (by simpa using hj), List.getElem_map,
    List.getElem_range]

theorem streamOf_length (e : Nat) (b : Board) : (streamOf e b).length = 81 := by
  simp [streamOf]

/-- Parsing the stream of a rule-satisfying board through the byte
interface gives back the board, for either empty marker. -/
theorem tryFromBytes_streamOf {e : Nat} (he : byteEntry e = none)
    {b : Board} (hWF : b.WF) (hcv : b.cellsValid) (hamo : b.atMostOnce) :
    tryFromBytes (streamOf e b) = .ok b := by
  rw [tryFromBytes_eq]
  have hlen : ((streamOf e b).map byteEntry).length = 81 := by
    rw [List.length_map, streamOf_length]
  have hentry : ∀ j, j < 81 →
      ((streamOf e b).map byteEntry).getD j none =
        byteEntry (match b.cellAt j with
          | .empty => e
          | .value v => 48 + v) := by
    intro j hj
    rw [streamOf, List.map_map, getD_map_range _ hj]
    rfl
  have hparsed : ∀ j, j < 81 →
      parsedCell (((streamOf e b).map byteEntry).getD j none) = b.cellAt j := by
    intro j hj
    rw [hentry j hj]
    rcases hcv ⟨j, hj⟩ with hc | ⟨d, hc⟩
    · simp only at hc
      rw [hc, he]
      rfl
    · simp only at hc
      rw [hc]
      have hd9 : d.val + 1 ≤ 9 := by omega
      have hbyte : byteEntry (48 + (d.val + 1)) = some (d.val + 1) := by
        rw [byteEntry, if_neg (by omega), if_pos (by omega)]
        congr 1
        omega
      rw [hbyte]
      simp [parsedCell]
      omega
  have hBeq : lenientBoard ((streamOf e b).map byteEntry) = b := by
    apply Board.ext_cellAt (lenientBoard_WF _) hWF
    intro i hi
    rw [lenientBoard_cellAt hlen hi, hparsed i hi]
  have herr : errsFrom ((streamOf e b).map byteEntry) 0 = ∅ := by
    rw [errsFrom_empty_iff]
    intro off hoff
    rw [hlen] at hoff
    rw [hentry off hoff]
    rcases hcv ⟨off, hoff⟩ with hc | ⟨d, hc⟩
    · simp only at hc
      rw [hc, he]
      rfl
    · simp only at hc
      rw [hc]
      have hbyte : byteEntry (48 + (d.val + 1)) = some (d.val + 1) := by
        rw [byteEntry, if_neg (by omega), if_pos (by omega)]
        congr 1
        omega
      rw [hbyte]
      simp [badEntry]
      omega
  have hrv : (lenientBoard ((streamOf e b).map byteEntry)).rule_violations = ∅ := by
    rw [hBeq]
    exact rule_violations_empty_of_amo hWF hcv hamo
  rw [tryFromOptVec_of_len hlen,
    if_pos (allErrors_empty_iff.mpr ⟨herr, hrv⟩), hBeq]

/-- A length-81 all-digit stream that parses successfully is exactly the
stream of the resulting board, which is full and rule-satisfying. -/
theorem tryFromBytes_digits_inv {s : List Nat} (hlen : s.length = 81)
    (hdig : ∀ c ∈ s, 49 ≤ c ∧ c ≤ 57) {b : Board}
    (h : tryFromBytes s = .ok b) :
    cellStream b = s ∧ b.Full ∧ b.atMostOnce := by
  have hgood := tryFromOptVec_ok_good (tryFromBytes_eq s ▸ h)
  rw [tryFromBytes_eq] at h
  obtain ⟨hlen', hb, herr, hrv⟩ := tryFromOptVec_ok_inv h
  have hcell : ∀ j, j < 81 →
      b.cellAt j = Field.value (s.getD j 0 - 48) ∧ 49 ≤ s.getD j 0 ∧
        s.getD j 0 ≤ 57 := by
    intro j hj
    have hjs : j < s.length := by omega
    have hsj := hdig (s.getD j 0)
      (by rw [List.getD_eq_getElem _ _ hjs]; exact List.getElem_mem hjs)
    have hdigit : 49 ≤ s.getD j 0 ∧ s.getD j 0 ≤ 57 := by
      apply hsj
    have hentry : (s.map byteEntry).getD j none = byteEntry (s.getD j 0) := by
      rw [List.getD_eq_getElem _ _ (by rw [List.length_map]; omega),
        List.getElem_map, List.getD_eq_getElem _ _ hjs]
    have hbyte : byteEntry (s.getD j 0) = some (s.getD j 0 - 48) := by
      rw [byteEntry, if_neg (by omega), if_pos (by omega)]
    rw [hb, lenientBoard_cellAt hlen' hj, hentry, hbyte]
    refine ⟨?_, hdigit⟩
    simp only [parsedCell]
    rw [if_pos (by omega)]
  refine ⟨?_, ?_, hgood.2.2⟩
  · apply List.ext_getElem
      (by unfold cellStream; rw [streamOf_length]; omega)
    intro j hj1 hj2
    have hj81 : j < 81 := by
      unfold cellStream at hj1
      rw [streamOf_length] at hj1
      exact hj1
    obtain ⟨hc, hd1, hd2⟩ := hcell j hj81
    unfold cellStream streamOf
    rw [List.getElem_map, List.getElem_range]
    rw [hc]
    show 48 + (s.getD j 0 - 48) = _
    have hgd : s.getD j 0 = s[j] := List.getD_eq_getElem _ _ (by omega)
    omega
  · intro i
    obtain ⟨hc, _, _⟩ := hcell i.val i.isLt
    rw [hc]
    rfl

theorem not_ws_of_digit_range {c : Nat} (h : 45 ≤ c ∧ c ≤ 57) :
    isWhitespaceChar c = false := by
  obtain ⟨h1, h2⟩ := h
  interval_cases c <;> decide

theorem cellStream_props {b : Board} (hcv : b.cellsValid) :
    ∀ c ∈ cellStream b, isWhitespaceChar c = false ∧ c < 128 := by
  intro c hc
  unfold cellStream streamOf at hc
  rw [List.mem_map] at hc
  obtain ⟨i, hi, hval⟩ := hc
  rw [List.mem_range] at hi
  have hrange : 45 ≤ c ∧ c ≤ 57 := by
    rcases hcv ⟨i, hi⟩ with hcell | ⟨d, hcell⟩ <;> simp only at hcell <;>
      rw [hcell] at hval <;> simp only at hval <;> omega
  exact ⟨not_ws_of_digit_range hrange, by omega⟩

/-! ## The space-encoded stream under the string interface -/

theorem streamOf_eq_of_full {b : Board} (hf : b.Full) (e1 e2 : Nat) :
    streamOf e1 b = streamOf e2 b := by
  unfold streamOf
  apply List.map_congr_left
  intro i hi
  rw [List.mem_range] at hi
  have hfi : (b.cellAt i).is_filled = true := hf ⟨i, hi⟩
  cases hc : b.cellAt i with
  | empty =>
      rw [hc] at hfi
      cases hfi
  | value v => rfl

theorem tryFromStr_spaceStream_full {b : Board} (hWF : b.WF)
    (hcv : b.cellsValid) (hamo : b.atMostOnce) (hf : b.Full) :
    tryFromStr (spaceStream b) = .ok b := by
  have heq : spaceStream b = cellStream b := streamOf_eq_of_full hf 32 45
  rw [heq, tryFromStr_eq_bytes (cellStream_props hcv)]
  show tryFromBytes (streamOf 45 b) = .ok b
  exact @tryFromBytes_streamOf 45 rfl b hWF hcv hamo

theorem tryFromStr_spaceStream_notFull {b : Board} (hcv : b.cellsValid)
    (hnf : ¬b.Full) : tryFromStr (spaceStream b) = .error .InvalidLength := by
  rw [tryFromStr]
  set l := spaceStream b with hl
  have hlen81 : l.length = 81 := streamOf_length 32 b
  -- there is an empty cell, hence a space in the stream
  have hempty : ∃ i, i < 81 ∧ b.cellAt i = Field.empty := by
    by_contra hcon
    push_neg at hcon
    apply hnf
    intro i
    rcases hcv i with hc | ⟨d, hc⟩
    · exact absurd hc (hcon i.val i.isLt)
    · rw [hc]
      rfl
  obtain ⟨i, hi, hce⟩ := hempty
  have hmem : (32 : Nat) ∈ l := by
    rw [hl, spaceStream, streamOf]
    rw [List.mem_map]
    refine ⟨i, by rw [List.mem_range]; exact hi, ?_⟩
    rw [hce]
  -- every element is a space or a digit, so the stripped bytes are ASCII
  have hel : ∀ c ∈ l, c = 32 ∨ (49 ≤ c ∧ c ≤ 57) := by
    intro c hc
    rw [hl, spaceStream, streamOf, List.mem_map] at hc
    obtain ⟨k, hk, hval⟩ := hc
    rw [List.mem_range] at hk
    rcases hcv ⟨k, hk⟩ with hcell | ⟨d, hcell⟩ <;> simp only at hcell <;>
      rw [hcell] at hval <;> simp only at hval
    · left; omega
    · right; omega
  have hstrip_ascii : ∀ c ∈ l.filter (fun c => !isWhitespaceChar c),
      c < 128 := by
    intro c hc
    rw [List.mem_filter] at hc
    rcases hel c hc.1 with hc32 | hdig
    · omega
    · omega
  rw [flatMap_utf8_ascii hstrip_ascii]
  apply tryFromBytes_len_iff.mpr
  -- the filtered list is strictly shorter than 81: the space is dropped
  have hsplit : l.length = (l.filter (fun c => !isWhitespaceChar c)).length +
      (l.filter (fun c => !(!isWhitespaceChar c))).length :=
    List.length_eq_length_filter_add (fun c => !isWhitespaceChar c)
  have hwsmem : (32 : Nat) ∈ l.filter (fun c => !(!isWhitespaceChar c)) := by
    rw [List.mem_filter]
    exact ⟨hmem, by decide⟩
  have hpos : 0 < (l.filter (fun c => !(!isWhitespaceChar c))).length :=
    List.length_pos.mpr (List.ne_nil_of_mem hwsmem)
  omega

/-! ## A full board exhausts immediately -/

theorem origin_valid : Position.Valid ⟨0, 0⟩ := by
  constructor <;> · show 0 < 9; omega

theorem origin_idx : (Position.mk 0 0).idx = 0 := rfl

theorem nextStep_of_full {b : Board} (hWF : b.WF) (hf : b.Full) :
    nextStep (initState b) = none := by
  have hnone : b.next_empty_field ⟨0, 0⟩ = none := by
    rw [next_empty_field_none_iff origin_valid]
    intro j h1 h2
    exact hf ⟨j, h2⟩
  unfold nextStep initState
  dsimp only
  rw [hnone]
  rfl

/-! ## The emission sequence, first_solution and count_solutions -/

/-- Characterization of the fuel-driven `first_solution`: when it settles,
the result is the board of the first emitted pair flagged complete, and the
`Unsolvable` outcome happens exactly when the iterator exhausts with no
complete pair emitted. -/
theorem firstSolutionFuel_char :
    ∀ (n : Nat) (s : BState) (r : Option Board),
      firstSolutionFuel s n = some r →
      r = ((emits s n).find? (fun pr => pr.2)).map Prod.fst ∧
        (r = none ↔ exhaustedWithin s n = true ∧
          (emits s n).all (fun pr => !pr.2) = true) := by
  intro n
  induction n with
  | zero => intro s r h; cases h
  | succ n ih =>
      intro s r h
      rw [firstSolutionFuel] at h
      cases hns : nextStep s with
      | none =>
          rw [hns] at h
          cases h
          rw [emits, exhaustedWithin, hns]
          simp
      | some prs =>
          obtain ⟨⟨bb, flag⟩, s'⟩ := prs
          rw [hns] at h
          rw [emits, exhaustedWithin, hns]
          cases flag with
          | true =>
              simp only at h
              cases h
              constructor
              · rw [List.find?_cons]
                rfl
              · simp
          | false =>
              simp only at h
              obtain ⟨ih1, ih2⟩ := ih s' r h
              constructor
              · rw [List.find?_cons]
                exact ih1
              · rw [ih2]
                simp

/-- The first `n` emitted pairs do not depend on the fuel, as long as the
fuel covers them. -/
theorem emits_prefix_stable :
    ∀ (n : Nat) (s : BState) (f1 f2 : Nat), n ≤ f1 → n ≤ f2 →
      (emits s f1).take n = (emits s f2).take n := by
  intro n
  induction n with
  | zero => intro s f1 f2 h1 h2; rfl
  | succ n ih =>
      intro s f1 f2 h1 h2
      cases f1 with
      | zero => omega
      | succ m1 =>
          cases f2 with
          | zero => omega
          | succ m2 =>
              rw [emits, emits]
              cases hns : nextStep s with
              | none => rfl
              | some prs =>
                  obtain ⟨pr, s'⟩ := prs
                  rw [List.take_cons (by omega : 0 < n + 1),
                    List.take_cons (by omega : 0 < n + 1)]
                  simp only [Nat.add_sub_cancel]
                  rw [ih s' m1 m2 (by omega) (by omega)]

/-- Take a prefix when a cap is given. -/
def optTake : Option Nat → List (Board × Bool) → List (Board × Bool)
  | none, l => l
  | some m, l => l.take m

/-- Cap a count when a cap is given. -/
def optMin : Option Nat → Nat → Nat
  | none, n => n
  | some m, n => min m n

theorem takeWhile_underCap_none {α : Type} :
    ∀ (l : List (Nat × α)),
      l.takeWhile (fun p => underCap none p.1) = l := by
  intro l
  induction l with
  | nil => rfl
  | cons x xs ih =>
      rw [List.takeWhile_cons]
      show (if true = true then _ else _) = _
      rw [if_pos rfl, ih]

theorem enumFrom_takeWhile_lt {α : Type} (m : Nat) :
    ∀ (l : List α) (k : Nat),
      (List.enumFrom k l).takeWhile (fun p => underCap (some m) p.1) =
        List.enumFrom k (l.take (m - k)) := by
  intro l
  induction l with
  | nil =>
      intro k
      rw [List.take_nil]
      rfl
  | cons x xs ih =>
      intro k
      rw [List.enumFrom_cons, List.takeWhile_cons]
      by_cases hk : k < m
      · have hcond : underCap (some m) (k, x).1 = true := by
          show decide (k < m) = true
          simpa using hk
        rw [hcond]
        show (k, x) :: List.takeWhile _ (List.enumFrom (k + 1) xs) = _
        rw [ih (k + 1)]
        have hm : m - k = (m - (k + 1)) + 1 := by omega
        rw [hm, List.take_cons (by omega : 0 < m - (k + 1) + 1)]
        simp only [Nat.add_sub_cancel]
        rw [List.enumFrom_cons]
      · have hcond : underCap (some m) (k, x).1 = false := by
          show decide (k < m) = false
          simpa using hk
        rw [hcond]
        show [] = _
        have hm : m - k = 0 := by omega
        rw [hm, List.take_zero]
        rfl

theorem length_filter_enumFrom_snd :
    ∀ (l : List (Board × Bool)) (k : Nat),
      ((List.enumFrom k l).filter (fun p => p.2.2)).length =
        (l.filter (fun pr => pr.2)).length := by
  intro l
  induction l with
  | nil => intro k; rfl
  | cons x xs ih =>
      intro k
      rw [List.enumFrom_cons, List.filter_cons, List.filter_cons]
      cases hpr : x.2 with
      | true => simp [hpr, ih (k + 1)]
      | false => simp [hpr, ih (k + 1)]

theorem length_takeWhile_underCap {α : Type} (ms : Option Nat)
    (y : List α) :
    ((y.enum.takeWhile (fun q => underCap ms q.1)).length) =
      optMin ms y.length := by
  cases ms with
  | none =>
      rw [takeWhile_underCap_none y.enum]
      exact List.enum_length
  | some m =>
      show ((List.enumFrom 0 y).takeWhile _).length = _
      rw [enumFrom_takeWhile_lt m y 0, Nat.sub_zero,
        List.enumFrom_length, List.length_take]
      rfl

/-- The `count_solutions` pipeline counts the complete pairs among the
first `max_iterations` elements, truncated to `max_solutions`. -/
theorem countPipeline_eq (l : List (Board × Bool)) (ms mi : Option Nat) :
    countPipeline l ms mi = optMin ms ((optTake mi l).countP (fun pr => pr.2)) := by
  rw [countPipeline]
  have h1 : l.enum.takeWhile (fun p => underCap mi p.1) =
      List.enumFrom 0 (optTake mi l) := by
    cases mi with
    | none => exact takeWhile_underCap_none l.enum
    | some m =>
        show (List.enumFrom 0 l).takeWhile _ = _
        rw [enumFrom_takeWhile_lt m l 0]
        rw [Nat.sub_zero]
        rfl
  rw [h1]
  rw [length_takeWhile_underCap ms
    ((List.enumFrom 0 (optTake mi l)).filter (fun p => p.2.2))]
  rw [length_filter_enumFrom_snd (optTake mi l) 0,
    List.countP_eq_length_filter]

theorem count_solutions_zero_iter (b : Board) (ms : Option Nat)
    (fuel : Nat) : b.count_solutions ms (some 0) fuel = 0 := by
  rw [Board.count_solutions, countPipeline_eq]
  show optMin ms (([] : List (Board × Bool)).countP _) = 0
  cases ms with
  | none => rfl
  | some m => show min m 0 = 0; omega

theorem emits_of_terminal {s : BState} (h : nextStep s = none) :
    ∀ fuel, emits s fuel = [] := by
  intro fuel
  cases fuel with
  | zero => rfl
  | succ n => rw [emits, h]

/-! ## Demonstration boards for the witnesses -/

/-- Shorthand turning a row of digits (0 = empty) into a row of fields. -/
def rw1 (l : List Nat) : List Field :=
  l.map (fun n => if n = 0 then Field.empty else Field.value n)

/-- The solved board of the crate's own test suite (starry.txt solved). -/
def demoSolution : Board :=
  [rw1 [6,1,3,5,2,9,7,8,4], rw1 [7,4,2,8,3,6,5,1,9], rw1 [9,8,5,1,7,4,3,2,6],
   rw1 [2,6,9,3,8,5,1,4,7], rw1 [5,3,1,9,4,7,2,6,8], rw1 [8,7,4,6,1,2,9,3,5],
   rw1 [4,2,6,7,5,1,8,9,3], rw1 [3,9,7,2,6,8,4,5,1], rw1 [1,5,8,4,9,3,6,7,2]]

/-- The solved board with a single empty cell at row 4, column 5. -/
def demoNearly : Board :=
  [rw1 [6,1,3,5,2,9,7,8,4], rw1 [7,4,2,8,3,6,5,1,9], rw1 [9,8,5,1,7,4,3,2,6],
   rw1 [2,6,9,3,8,5,1,4,7], rw1 [5,3,1,9,4,0,2,6,8], rw1 [8,7,4,6,1,2,9,3,5],
   rw1 [4,2,6,7,5,1,8,9,3], rw1 [3,9,7,2,6,8,4,5,1], rw1 [1,5,8,4,9,3,6,7,2]]

/-! ## The claims -/

/-- C1: every board returned by a successful parse (from a string, a byte
vector, or a vector of 81 optional digits) and every board emitted in a
(board, is_complete) pair by the backtracking iterator run on a parsed
board has each digit 1-9 at most once in each row, column and 3×3 box. -/
theorem C1_parsed_and_emitted_boards_satisfy_rules :
    (∀ (input : List (Option Nat)) (b : Board),
      tryFromOptVec input = .ok b → b.atMostOnce) ∧
    (∀ (input : List Nat) (b : Board),
      tryFromBytes input = .ok b → b.atMostOnce) ∧
    (∀ (input : List Nat) (b : Board),
      tryFromStr input = .ok b → b.atMostOnce) ∧
    (∀ (input : List (Option Nat)) (b0 : Board) (s : BState)
      (pr : Board × Bool) (s' : BState),
      tryFromOptVec input = .ok b0 → Reaches b0 s →
      nextStep s = some (pr, s') → pr.1.atMostOnce) := by
  refine ⟨?_, ?_, ?_, ?_⟩
  · intro input b h
    exact (tryFromOptVec_ok_good h).2.2
  · intro input b h
    exact (tryFromOptVec_ok_good (tryFromBytes_eq input ▸ h)).2.2
  · intro input b h
    rw [tryFromStr, tryFromBytes_eq] at h
    exact (tryFromOptVec_ok_good h).2.2
  · intro input b0 s pr s' hparse hreach hstep
    obtain ⟨hWF, _, hamo⟩ := tryFromOptVec_ok_good hparse
    have hreach' : Reaches b0 s' := Reaches.tail hreach hstep
    have hb : pr.1 = s'.board := (nextStep_emit hstep).1
    rw [hb]
    exact reaches_amo hWF hamo hreach'

/-- Witness for C1: the all-empty input parses successfully and the parsed
board satisfies the rules. -/
theorem C1_witness :
    tryFromOptVec (List.replicate 81 none) = .ok Board.mkEmpty ∧
      Board.mkEmpty.atMostOnce :=
  ⟨by decide,
    C1_parsed_and_emitted_boards_satisfy_rules.1 (List.replicate 81 none)
      Board.mkEmpty (by decide)⟩

/-- C8: `next_empty_field p` returns `None` exactly when every cell of
linear index at least `p`'s is filled, and otherwise returns the first
empty position at or after `p` in row-major order. -/
theorem C8_next_empty_field_characterization {b : Board} {p : Position}
    (hp : p.Valid) :
    (b.next_empty_field p = none ↔
      ∀ j, p.idx ≤ j → j < 81 → (b.cellAt j).is_filled = true) ∧
    (∀ q, b.next_empty_field p = some q →
      (b.cellAt q.idx).is_empty = true ∧ p.idx ≤ q.idx ∧ q.idx < 81 ∧
        ∀ l, p.idx ≤ l → l < q.idx → (b.cellAt l).is_filled = true) := by
  constructor
  · exact next_empty_field_none_iff hp
  · intro q hq
    obtain ⟨h1, h2, h3, h4, h5, h6⟩ := next_empty_field_some hp hq
    exact ⟨h5, h3, h4, h6⟩

/-- Witness for C8: on the fully solved demonstration board the scan from
the origin finds no empty cell. -/
theorem C8_witness :
    Position.Valid ⟨0, 0⟩ ∧ demoSolution.next_empty_field ⟨0, 0⟩ = none :=
  ⟨by decide,
    (@C8_next_empty_field_characterization demoSolution ⟨0, 0⟩
      (by decide)).1.mpr
      (fun j _ hj => (by decide : demoSolution.Full) ⟨j, hj⟩)⟩

/-- C10: a board with no empty cell at all makes the iterator's first call
to `next` return `None`; hence `first_solution` fails with `Unsolvable` and
`count_solutions` returns 0, although the board is itself complete. -/
theorem C10_full_board_yields_no_emission {b : Board} (hWF : b.WF)
    (hf : b.Full) :
    nextStep (initState b) = none ∧
    (∀ fuel, b.first_solution (fuel + 1) = some none) ∧
    (∀ ms mi fuel, b.count_solutions ms mi fuel = 0) := by
  have h1 := nextStep_of_full hWF hf
  refine ⟨h1, ?_, ?_⟩
  · intro fuel
    rw [Board.first_solution, firstSolutionFuel, h1]
  · intro ms mi fuel
    rw [Board.count_solutions, emits_of_terminal h1, countPipeline_eq]
    have hopt : optTake mi ([] : List (Board × Bool)) = [] := by
      cases mi with
      | none => rfl
      | some m => exact List.take_nil
    rw [hopt]
    show optMin ms 0 = 0
    cases ms with
    | none => rfl
    | some m => show min m 0 = 0; omega

/-- Witness for C10: the solved demonstration board is full, its iterator
exhausts immediately, and its first_solution is `Unsolvable`. -/
theorem C10_witness :
    demoSolution.WF ∧ demoSolution.Full ∧
      nextStep (initState demoSolution) = none ∧
      demoSolution.first_solution 1 = some none ∧
      demoSolution.count_solutions none none 5 = 0 := by
  have h := @C10_full_board_yields_no_emission demoSolution
    (by decide) (by decide)
  exact ⟨by decide, by decide, h.1, h.2.1 0, h.2.2 none none 5⟩

/-- C2: every call to `next` that produces a pair reaches, after zero or
more non-productive pops, a `TryValue(pos, v)` frame; the digit placed is
the least candidate `d` in `[v..9]` that is a valid placement at `pos`, the
step returns immediately after that single placement, and a resume frame
`(pos, d+1)` is left on the stack exactly when `d < 9`. -/
theorem C2_places_least_valid_candidate {s : BState} {bb : Board} {cc : Bool}
    {s' : BState} (h : nextStep s = some ((bb, cc), s')) :
    ∃ (b0 : Board) (cur0 pos : Position) (v d : Nat)
      (rest : List Instruction),
      Relation.ReflTransGen ExecStep
        (match s.board.next_empty_field s.current_position with
          | some p => prepare_stack s p
          | none => s)
        ⟨b0, cur0, Instruction.TryValue pos v :: rest⟩ ∧
      v ≤ d ∧ d ≤ 9 ∧
      b0.valid_number_at_position pos (Field.from_u8 d) = true ∧
      (∀ e, v ≤ e → e < d →
        b0.valid_number_at_position pos (Field.from_u8 e) = false) ∧
      bb = b0.put_field pos (Field.from_u8 d) ∧
      s' = ⟨bb, pos,
        if d < 9 then Instruction.TryValue pos (d + 1) :: rest else rest⟩ := by
  unfold nextStep at h
  cases hne : s.board.next_empty_field s.current_position with
  | some p =>
      rw [hne] at h
      simp only [prepare_stack] at h
      cases hex : execute_stack
          (Instruction.TryValue p 1 ::
            Instruction.BackTo s.current_position :: s.stack)
          s.board s.current_position with
      | mk r s2 =>
          rw [hex] at h
          cases r with
          | PutNewFieldOnBoard =>
              simp only at h
              cases h
              obtain ⟨b0, cur0, pos, v, d, rest, htr, hfv, hs⟩ :=
                exec_trace _ _ _ _ hex
              obtain ⟨h1, h2, h3, h4⟩ := firstValidFrom_some_iff.mp hfv
              subst hs
              exact ⟨b0, cur0, pos, v, d, rest, htr, h1, h2, h3, h4, rfl, rfl⟩
          | RanOutOfStack => cases h
  | none =>
      rw [hne] at h
      simp only at h
      cases hex : execute_stack s.stack s.board s.current_position with
      | mk r s2 =>
          rw [hex] at h
          cases r with
          | PutNewFieldOnBoard =>
              simp only at h
              cases h
              obtain ⟨b0, cur0, pos, v, d, rest, htr, hfv, hs⟩ :=
                exec_trace _ _ _ _ hex
              obtain ⟨h1, h2, h3, h4⟩ := firstValidFrom_some_iff.mp hfv
              subst hs
              exact ⟨b0, cur0, pos, v, d, rest, htr, h1, h2, h3, h4, rfl, rfl⟩
          | RanOutOfStack => cases h

/-- The board after the first placement on the empty board. -/
def demoStep1 : Board :=
  rw1 [1,0,0,0,0,0,0,0,0] :: List.replicate 8 (List.replicate 9 Field.empty)

/-- Witness for C2: the first step on the empty board places a digit and
the characterization applies to it. -/
theorem C2_witness :
    ∃ (b0 : Board) (cur0 pos : Position) (v d : Nat)
      (rest : List Instruction),
      Relation.ReflTransGen ExecStep
        (match Board.mkEmpty.next_empty_field
            (initState Board.mkEmpty).current_position with
          | some p => prepare_stack (initState Board.mkEmpty) p
          | none => initState Board.mkEmpty)
        ⟨b0, cur0, Instruction.TryValue pos v :: rest⟩ ∧
      v ≤ d ∧ d ≤ 9 ∧
      b0.valid_number_at_position pos (Field.from_u8 d) = true ∧
      (∀ e, v ≤ e → e < d →
        b0.valid_number_at_position pos (Field.from_u8 e) = false) ∧
      demoStep1 = b0.put_field pos (Field.from_u8 d) ∧
      (⟨demoStep1, ⟨0, 0⟩,
        [Instruction.TryValue ⟨0, 0⟩ 2, Instruction.BackTo ⟨0, 0⟩]⟩ : BState) =
        ⟨demoStep1, pos,
          if d < 9 then Instruction.TryValue pos (d + 1) :: rest else rest⟩ :=
  @C2_places_least_valid_candidate (initState Board.mkEmpty)
    demoStep1 false
    ⟨demoStep1, ⟨0, 0⟩,
      [Instruction.TryValue ⟨0, 0⟩ 2, Instruction.BackTo ⟨0, 0⟩]⟩
    (by decide)

/-- C3: for every emitted pair, the completeness flag is true exactly when
the emitted board has no empty cell at or after the iterator's cursor, and
this coincides with the board having no empty cell anywhere. -/
theorem C3_completeness_flag {b0 : Board} {s : BState} {bb : Board}
    {cc : Bool} {s' : BState} (hWF : b0.WF) (hr : Reaches b0 s)
    (h : nextStep s = some ((bb, cc), s')) :
    (cc = true ↔
      ∀ j, s'.current_position.idx ≤ j → j < 81 →
        (bb.cellAt j).is_filled = true) ∧
    (cc = true ↔ ∀ j, j < 81 → (bb.cellAt j).is_filled = true) := by
  obtain ⟨hb, hc⟩ := nextStep_emit h
  simp only at hb hc
  obtain ⟨hWF', hcv', hfb', _, _⟩ :=
    nextStep_inv (reaches_inv hWF hr) h
  subst hb
  have hiff1 : cc = true ↔
      ∀ j, s'.current_position.idx ≤ j → j < 81 →
        (s'.board.cellAt j).is_filled = true := by
    rw [hc, Option.isNone_iff_eq_none]
    exact next_empty_field_none_iff hcv'
  refine ⟨hiff1, ?_⟩
  rw [hiff1]
  constructor
  · intro hall j hj
    by_cases hlt : j < s'.current_position.idx
    · exact hfb' j hlt hj
    · exact hall j (by omega) hj
  · intro hall j _ hj
    exact hall j hj

/-- Witness for C3: the single step on the nearly-solved demonstration
board emits a complete pair, and the flag characterization applies. -/
theorem C3_witness :
    demoNearly.WF ∧
      ((true = true ↔
        ∀ j, (Position.mk 4 5).idx ≤ j → j < 81 →
          (demoSolution.cellAt j).is_filled = true) ∧
      (true = true ↔ ∀ j, j < 81 → (demoSolution.cellAt j).is_filled = true)) :=
  ⟨by decide,
    @C3_completeness_flag demoNearly (initState demoNearly)
      demoSolution true
      ⟨demoSolution, ⟨4, 5⟩,
        [Instruction.TryValue ⟨4, 5⟩ 8, Instruction.BackTo ⟨0, 0⟩]⟩
      (by decide) Reaches.refl (by decide)⟩

/-- C4: whenever the fuel-driven `first_solution` settles, it returns the
board of the first emitted pair whose flag is true, and it returns the
`Unsolvable` outcome exactly when the iterator exhausts without ever
emitting a complete pair. -/
theorem C4_first_solution_characterization {b : Board} {fuel : Nat}
    {r : Option Board} (h : b.first_solution fuel = some r) :
    r = ((emits (initState b) fuel).find? (fun pr => pr.2)).map Prod.fst ∧
      (r = none ↔ exhaustedWithin (initState b) fuel = true ∧
        (emits (initState b) fuel).all (fun pr => !pr.2) = true) :=
  firstSolutionFuel_char fuel (initState b) r h

/-- Witness for C4: the nearly-solved demonstration board, driven for two
steps, returns its unique completion as first solution. -/
theorem C4_witness :
    demoNearly.first_solution 2 = some (some demoSolution) ∧
      some demoSolution =
        ((emits (initState demoNearly) 2).find? (fun pr => pr.2)).map
          Prod.fst :=
  ⟨by decide,
    (@C4_first_solution_characterization demoNearly 2
      (some demoSolution) (by decide)).1⟩

set_option maxRecDepth 40000 in
/-- C5: `count_solutions` returns the number of complete pairs among the
first `max_iterations` emitted elements (all of them when the cap is
absent), truncated to at most `max_solutions`; the explored prefix does not
depend on the fuel; with `max_iterations = 0` the count is 0 for every
board; and on the fully empty board a small `max_solutions` cap `k` is
returned exactly (shown for `k ≤ 3`, the prefix of 439 steps containing
exactly 3 solutions). -/
theorem C5_count_solutions_caps :
    (∀ (b : Board) (ms mi : Option Nat) (fuel : Nat),
      b.count_solutions ms mi fuel =
        optMin ms ((optTake mi (emits (initState b) fuel)).countP
          (fun pr => pr.2))) ∧
    (∀ (n : Nat) (s : BState) (f1 f2 : Nat), n ≤ f1 → n ≤ f2 →
      (emits s f1).take n = (emits s f2).take n) ∧
    (∀ (b : Board) (ms : Option Nat) (fuel : Nat),
      b.count_solutions ms (some 0) fuel = 0) ∧
    ((emits (initState Board.mkEmpty) 439).countP (fun pr => pr.2) = 3 ∧
      ∀ k, 1 ≤ k → k ≤ 3 →
        Board.mkEmpty.count_solutions (some k) none 439 = k) := by
  have hco : (emits (initState Board.mkEmpty) 439).countP (fun pr => pr.2) = 3 := by
    decide
  refine ⟨?_, emits_prefix_stable, count_solutions_zero_iter, hco, ?_⟩
  · intro b ms mi fuel
    rw [Board.count_solutions, countPipeline_eq]
  · intro k h1 h2
    rw [Board.count_solutions, countPipeline_eq]
    show min k ((optTake none (emits (initState Board.mkEmpty) 439)).countP
      (fun pr => pr.2)) = k
    show min k ((emits (initState Board.mkEmpty) 439).countP
      (fun pr => pr.2)) = k
    rw [hco]
    omega

/-- Witness for C5: prefix stability and the empty-board cap instantiated
at concrete values. -/
theorem C5_witness :
    ((emits (initState Board.mkEmpty) 1).take 1 =
      (emits (initState Board.mkEmpty) 2).take 1) ∧
      Board.mkEmpty.count_solutions (some 2) none 439 = 2 :=
  ⟨C5_count_solutions_caps.2.1 1 (initState Board.mkEmpty) 1 2 (by omega)
      (by omega),
    C5_count_solutions_caps.2.2.2.2 2 (by omega) (by omega)⟩

/-- C9: parsing the 81-character digit-or-dash stream of a rule-satisfying
board yields the same board back; restricted to all-digit streams the parse
and the stream construction are mutually inverse (a bijection between valid
81-digit streams and full rule-satisfying boards); and the display output
is a pure function of the 81 cell contents. -/
theorem C9_round_trip_and_display :
    (∀ b : Board, b.WF → b.cellsValid → b.atMostOnce →
      tryFromStr (cellStream b) = .ok b) ∧
    (∀ s : List Nat, s.length = 81 → (∀ c ∈ s, 49 ≤ c ∧ c ≤ 57) →
      ∀ b : Board, tryFromBytes s = .ok b →
        cellStream b = s ∧ b.Full ∧ b.atMostOnce) ∧
    (∀ b1 b2 : Board, b1.WF → b2.WF →
      (∀ i, i < 81 → b1.cellAt i = b2.cellAt i) →
      b1.displayBytes = b2.displayBytes) := by
  refine ⟨?_, ?_, ?_⟩
  · intro b hWF hcv hamo
    rw [tryFromStr_eq_bytes (cellStream_props hcv)]
    show tryFromBytes (streamOf 45 b) = .ok b
    exact @tryFromBytes_streamOf 45 rfl b hWF hcv hamo
  · intro s h1 h2 b h
    exact tryFromBytes_digits_inv h1 h2 h
  · intro b1 b2 h1 h2 h
    rw [Board.ext_cellAt h1 h2 h]

set_option maxRecDepth 40000 in
/-- Witness for C9: the round trip on the solved demonstration board. -/
theorem C9_witness :
    demoSolution.WF ∧ tryFromStr (cellStream demoSolution) = .ok demoSolution :=
  ⟨by decide,
    C9_round_trip_and_display.1 demoSolution (by decide) (by decide)
      (by decide)⟩

/-- Counterexample for C6: an input of 80 ASCII digit characters followed
by the character U+00E9 consists of exactly 81 characters after discarding
whitespace, yet the string parse fails with `InvalidLength` (the code
measures the 82 UTF-8 bytes, not the characters). -/
theorem C6_counterexample :
    ((List.replicate 80 49 ++ [233]).filter
      (fun c => !isWhitespaceChar c)).length = 81 ∧
    tryFromStr (List.replicate 80 49 ++ [233]) =
      .error .InvalidLength := by
  constructor
  · decide
  · decide

/-- C6 (amended): string parsing fails with `InvalidLength` exactly when
the input, after discarding whitespace, does not consist of exactly 81
UTF-8 bytes (equivalently 81 characters when the input is ASCII; the check
short-circuits before any per-position error).  For length-81 inputs the
parse succeeds exactly when there is no invalid character and no rule
violation, and otherwise fails with the union of the per-position
`InvalidCharacter` and `SudokuRuleViolation` sets; invalid characters are
treated as empty when computing rule violations; a digit occurring twice in
one row is reported as a rule violation at both positions. -/
theorem C6_amended_parse_errors :
    (∀ cs : List Nat, tryFromStr cs = .error .InvalidLength ↔
      ((cs.filter (fun c => !isWhitespaceChar c)).flatMap utf8Encode).length
        ≠ 81) ∧
    (∀ cs : List Nat, (∀ c ∈ cs, c < 128) →
      (tryFromStr cs = .error .InvalidLength ↔
        (cs.filter (fun c => !isWhitespaceChar c)).length ≠ 81)) ∧
    (∀ input : List (Option Nat), input.length = 81 →
      (tryFromOptVec input = .ok (lenientBoard input) ↔
        errsFrom input 0 = ∅ ∧ (lenientBoard input).rule_violations = ∅)) ∧
    (∀ input : List (Option Nat), input.length = 81 →
      allErrors input ≠ ∅ →
      tryFromOptVec input = .error (.ParseErrors (allErrors input))) ∧
    (∀ (input : List (Option Nat)) (pos : Position) (er : FieldParseError),
      (pos, er) ∈ allErrors input ↔
        ((er = .InvalidCharacter ∧ ∃ i, i < input.length ∧
            badEntry (input.getD i none) = true ∧
            pos = Position.from_index i) ∨
         (er = .SudokuRuleViolation ∧
            pos ∈ (lenientBoard input).rule_violations))) ∧
    (∀ input : List (Option Nat), input.length = 81 → ∀ j, j < 81 →
      (lenientBoard input).cellAt j = parsedCell (input.getD j none)) ∧
    (∀ input : List (Option Nat), input.length = 81 →
      ∀ i j d : Nat, i < 81 → j < 81 → i ≠ j → i / 9 = j / 9 →
        input.getD i none = some d → input.getD j none = some d →
        1 ≤ d → d ≤ 9 →
        Position.from_index i ∈ (lenientBoard input).rule_violations ∧
        Position.from_index j ∈ (lenientBoard input).rule_violations) := by
  refine ⟨?_, ?_, ?_, ?_, ?_, ?_, ?_⟩
  · intro cs
    show tryFromBytes _ = _ ↔ _
    exact tryFromBytes_len_iff
  · intro cs hascii
    show tryFromBytes _ = _ ↔ _
    have hascii2 : ∀ c ∈ cs.filter (fun c => !isWhitespaceChar c), c < 128 :=
      fun c hc => hascii c (List.mem_of_mem_filter hc)
    rw [flatMap_utf8_ascii hascii2]
    exact tryFromBytes_len_iff
  · intro input hlen
    rw [tryFromOptVec_of_len hlen]
    constructor
    · intro h
      split at h
      · rename_i hcond
        exact allErrors_empty_iff.mp hcond
      · cases h
    · intro hcond
      rw [if_pos (allErrors_empty_iff.mpr hcond)]
  · intro input hlen hne
    rw [tryFromOptVec_of_len hlen, if_neg hne]
  · intro input pos er
    rw [allErrors, Finset.mem_union, Finset.mem_image]
    constructor
    · intro h
      rcases h with h | h
      · obtain ⟨i, h1, h2, h3⟩ := (errsFrom_mem input 0 _).mp h
        rw [Nat.zero_add] at h3
        rw [Prod.mk.injEq] at h3
        exact Or.inl ⟨h3.2, i, h1, h2, h3.1⟩
      · obtain ⟨q, hq, heq⟩ := h
        rw [Prod.mk.injEq] at heq
        exact Or.inr ⟨heq.2.symm, heq.1 ▸ hq⟩
    · intro h
      rcases h with ⟨her, i, h1, h2, h3⟩ | ⟨her, hmem⟩
      · left
        apply (errsFrom_mem input 0 _).mpr
        refine ⟨i, h1, h2, ?_⟩
        rw [Nat.zero_add, h3, her]
      · right
        exact ⟨pos, hmem, by rw [her]⟩
  · intro input hlen j hj
    exact lenientBoard_cellAt hlen hj
  · intro input hlen i j d hi hj hne hrow hvi hvj hd1 hd2
    constructor
    · exact dup_row_in_violations_one hlen hi hj hne hrow hvi hvj ⟨hd1, hd2⟩
    · exact dup_row_in_violations_one hlen hj hi (fun hc => hne hc.symm)
        hrow.symm hvj hvi ⟨hd1, hd2⟩

/-- The demonstration input for C6: the digit 5 twice in the first row. -/
def dupInput : List (Option Nat) := some 5 :: some 5 :: List.replicate 79 none

/-- Witness for C6 (amended): a concrete row duplicate is reported at both
positions, and the byte-length condition at a concrete string. -/
theorem C6_witness :
    (Position.from_index 0 ∈ (lenientBoard dupInput).rule_violations ∧
      Position.from_index 1 ∈ (lenientBoard dupInput).rule_violations) ∧
    (tryFromStr [49] = .error .InvalidLength ↔
      (([49].filter (fun c => !isWhitespaceChar c)).flatMap utf8Encode).length
        ≠ 81) :=
  ⟨C6_amended_parse_errors.2.2.2.2.2.2 dupInput (by decide) 0 1 5 (by omega)
      (by omega) (by omega) (by decide) (by decide) (by decide) (by omega)
      (by omega),
    C6_amended_parse_errors.1 [49]⟩

set_option maxRecDepth 40000 in
/-- Counterexample for C7: the all-empty assignment satisfies the rules,
yet its 81-character space-encoded text fails with `InvalidLength` via the
string parsing interface (the spaces are stripped as whitespace) instead of
succeeding. -/
theorem C7_counterexample :
    Board.mkEmpty.WF ∧ Board.mkEmpty.cellsValid ∧ Board.mkEmpty.atMostOnce ∧
      spaceStream Board.mkEmpty = List.replicate 81 32 ∧
      tryFromStr (spaceStream Board.mkEmpty) = .error .InvalidLength := by
  refine ⟨by decide, by decide, by decide, by decide, by decide⟩

/-- C7 (amended): for every rule-satisfying assignment, the 81-character
space-encoded input succeeds via the byte-vector interface
(`TryFrom<Vec<u8>>`), producing the board with exactly those cells empty;
via the string interface spaces are stripped as whitespace, so that parse
succeeds exactly for assignments with no empty cell and otherwise fails
with `InvalidLength`. -/
theorem C7_amended_space_encoding :
    (∀ b : Board, b.WF → b.cellsValid → b.atMostOnce →
      tryFromBytes (spaceStream b) = .ok b) ∧
    (∀ b : Board, b.WF → b.cellsValid → b.atMostOnce → b.Full →
      tryFromStr (spaceStream b) = .ok b) ∧
    (∀ b : Board, b.cellsValid → ¬b.Full →
      tryFromStr (spaceStream b) = .error .InvalidLength) := by
  refine ⟨?_, ?_, ?_⟩
  · intro b hWF hcv hamo
    show tryFromBytes (streamOf 32 b) = .ok b
    exact @tryFromBytes_streamOf 32 rfl b hWF hcv hamo
  · intro b hWF hcv hamo hf
    exact tryFromStr_spaceStream_full hWF hcv hamo hf
  · intro b hcv hnf
    exact tryFromStr_spaceStream_notFull hcv hnf

set_option maxRecDepth 40000 in
/-- Witness for C7 (amended): the all-empty and the full demonstration
boards. -/
theorem C7_witness :
    tryFromBytes (spaceStream Board.mkEmpty) = .ok Board.mkEmpty ∧
      tryFromStr (spaceStream demoSolution) = .ok demoSolution :=
  ⟨C7_amended_space_encoding.1 Board.mkEmpty (by decide) (by decide)
      (by decide),
    C7_amended_space_encoding.2.1 demoSolution (by decide) (by decide)
      (by decide) (by decide)⟩

end Fabrik
